import Mathlib

/-!
Verification of the constant-expression evaluator and control-flow analyzer
of the solidity semantic-analysis core.

The definitions below are a shallow embedding of the two source units:

* `libsolidity/analysis/ConstantEvaluator.cpp` — the precision guards
  (`fitsPrecisionExp`, `fitsPrecisionBase2`), the pure arbitrary-precision
  operator evaluator (`evaluateBinaryOperator`), the type-directed bounds
  conversion (`convertType`) and the depth-bounded recursive evaluation of
  constant variable declarations (`evaluate`, embedded as `evalDecl`).
* `ControlFlowAnalyzer.cpp` — the per-function dataflow fixpoint for
  uninitialized-variable accesses (`checkUninitializedAccess`) and the
  unreachable-code detector (`checkUnreachable`).

boost `bigint` is embedded as `ℤ` (arbitrary precision in both), boost
`rational` as `ℚ` (both keep a reduced fraction with positive denominator,
`Rat.num : ℤ` / `Rat.den : ℕ`).  C++ `bigint` division and modulo truncate
towards zero, hence `Int.tdiv` / `Int.tmod`.  CFG nodes are addressed by
natural-number indices instead of pointers; pointer-keyed `std::set`s become
`Finset ℕ` (variable declarations) and duplicate-free lists
(`VariableOccurrence` sets, whose iteration order is re-established by an
explicit sort before reporting, as in the source).
-/

/-! ## Rational arithmetic core -/

/-- Fuel-indexed most-significant-bit computation: `msbAux fuel x` halves `x`
until it is below 2, counting the steps.  With `fuel ≥ x` this is
`boost::multiprecision::msb`, i.e. `⌊log₂ x⌋` (see `msb_eq_log`). -/
def msbAux : ℕ → ℕ → ℕ
  | 0, _ => 0
  | fuel + 1, x => if 2 ≤ x then msbAux fuel (x / 2) + 1 else 0

/-- Index of the most significant set bit of `x` (0 for `x ≤ 1`), the shallow
embedding of `boost::multiprecision::msb`. -/
def msb (x : ℕ) : ℕ := msbAux x x

/-- Shallow embedding of `fitsPrecisionExp` (ConstantEvaluator.cpp): checks
whether `base ** exp` fits into 4096 bits, via the conservative estimate
`exp * (msb base + 1) ≤ 4096`.  The C++ asserts `base > 0` after the zero
test; all call sites pass an absolute value, so the negative case is
unreachable there. -/
def fitsPrecisionExp (base : ℤ) (exp : ℤ) : Bool :=
  if base = 0 then
    true
  else
    let mostSignificantBaseBit := msb base.toNat
    if mostSignificantBaseBit = 0 then true
    else if 4096 < mostSignificantBaseBit then false
    else decide (exp * (mostSignificantBaseBit + 1 : ℤ) ≤ 4096)

/-- Modelled from the spec: `fitsPrecisionBase2(mantissa, shiftAmount)` —
the body (`fitsPrecisionBaseX`) is not part of the provided sources.  Per the
spec it "fits iff scaling `mantissa` by `2^shiftAmount` would not exceed the
same 4096-bit ceiling, using the same most-significant-bit-based estimate":
the estimated bit count of `mantissa * 2^shift` is `msb mantissa + shift + 1`. -/
def fitsPrecisionBase2 (mantissa : ℕ) (shiftAmount : ℕ) : Bool :=
  if mantissa = 0 then
    true
  else if 4096 < msb mantissa then false
  else decide (msb mantissa + shiftAmount + 1 ≤ 4096)

/-- Embedding of the boost rational constructor `makeRational(num, den)`:
construct the reduced fraction `num / den` (the boost type normalises sign
and gcd on construction, exactly as `ℚ` division does). -/
def makeRational (num den : ℤ) : ℚ := (num : ℚ) / (den : ℚ)

/-- The `optimizedPow` lambda of the exponentiation case: special-cases
bases `1` and `-1`, otherwise `boost::multiprecision::pow`. -/
def optimizedPow (base : ℤ) (exponent : ℕ) : ℤ :=
  if base = 1 then 1
  else if base = -1 then 1 - 2 * ((exponent &&& 1 : ℕ) : ℤ)
  else base ^ exponent

/-- The operator tokens `ConstantEvaluator::evaluateBinaryOperator` switches
on; `other` stands for every remaining token (the `default:` case). -/
inductive Token where
  | bitOr | bitXor | bitAnd
  | add | sub | mul | div | mod
  | exp | shl | sar
  | other
deriving DecidableEq, Repr

/-- Largest `uint32_t` value, `std::numeric_limits<uint32_t>::max()`. -/
def uint32max : ℕ := 4294967295

/-- Shallow embedding of
`ConstantEvaluator::evaluateBinaryOperator(Token, rational, rational)`
(ConstantEvaluator.cpp): pure, stateless arbitrary-precision operator
semantics.  `std::nullopt` is `none`. -/
def evaluateBinaryOperator (op : Token) (left right : ℚ) : Option ℚ :=
  let fractional : Bool := decide (left.den ≠ 1) || decide (right.den ≠ 1)
  match op with
  | .bitOr =>
    if fractional then none
    else some ((Int.lor left.num right.num : ℤ) : ℚ)
  | .bitXor =>
    if fractional then none
    else some ((Int.xor left.num right.num : ℤ) : ℚ)
  | .bitAnd =>
    if fractional then none
    else some ((Int.land left.num right.num : ℤ) : ℚ)
  | .add => some (left + right)
  | .sub => some (left - right)
  | .mul => some (left * right)
  | .div =>
    if right = 0 then none
    else some (left / right)
  | .mod =>
    if right = 0 then none
    else if fractional then
      let tempValue := left / right
      some (left - ((Int.tdiv tempValue.num (tempValue.den : ℤ) : ℤ) : ℚ) * right)
    else some ((Int.tmod left.num right.num : ℤ) : ℚ)
  | .exp =>
    if right.den ≠ 1 then none
    else
      let exp := right.num
      if exp = 0 then some 1
      else if left = 0 ∨ left = 1 then some left
      else if left = -1 then
        let isOdd := Int.land |exp| 1
        some ((1 - 2 * isOdd : ℤ) : ℚ)
      else
        if (uint32max : ℤ) < |exp| then none
        else
          let absExp : ℕ := |exp|.toNat
          if ¬ fitsPrecisionExp |left.num| (absExp : ℤ)
              ∨ ¬ fitsPrecisionExp |(left.den : ℤ)| (absExp : ℤ) then none
          else
            let numerator := optimizedPow left.num absExp
            let denominator := optimizedPow (left.den : ℤ) absExp
            if 0 ≤ exp then some (makeRational numerator denominator)
            else some (makeRational denominator numerator)
  | .shl =>
    if fractional then none
    else if right < 0 then none
    else if (uint32max : ℚ) < right then none
    else if left.num = 0 then some 0
    else
      let exponent : ℕ := right.num.toNat
      if ¬ fitsPrecisionBase2 left.num.natAbs exponent then none
      else some ((left.num * 2 ^ exponent : ℤ) : ℚ)
  | .sar =>
    if fractional then none
    else if right < 0 then none
    else if (uint32max : ℚ) < right then none
    else if left.num = 0 then some 0
    else
      let exponent : ℕ := right.num.toNat
      if msb left.num.natAbs < exponent then
        some (if left.num < 0 then -1 else 0)
      else if left.num < 0 then
        some ((Int.tdiv (left.num + 1) (2 ^ exponent) - 1 : ℤ) : ℚ)
      else
        some ((Int.tdiv left.num (2 ^ exponent) : ℤ) : ℚ)
  | .other => none

/-! ## Types and bounds conversion -/

/-- The fragment of the semantic `Type` hierarchy the evaluator inspects:
rational-number types (which carry their constant value), bounded integer
types with inclusive bounds, and every other category. -/
inductive CType where
  | rationalT (value : ℚ)
  | integerT (minValue maxValue : ℤ)
  | otherT
deriving DecidableEq, Repr

/-- A `TypedRational`: a rational constant paired with its semantic type. -/
structure TypedRational where
  type : CType
  value : ℚ
deriving DecidableEq, Repr

/-- Embedding of `TypeProvider::rationalNumber(value)`: the rational-number
type carrying `value`. -/
def rationalNumberType (v : ℚ) : CType := .rationalT v

/-- Shallow embedding of the file-local
`convertType(rational const&, Type const&)` (ConstantEvaluator.cpp):
rational targets store the value as-is; integer targets check the inclusive
bounds and store the truncated integer quotient; other categories fail. -/
def convertType (v : ℚ) (t : CType) : Option TypedRational :=
  match t with
  | .rationalT _ => some ⟨rationalNumberType v, v⟩
  | .integerT minValue maxValue =>
    if (maxValue : ℚ) < v ∨ v < (minValue : ℚ) then none
    else some ⟨t, ((Int.tdiv v.num (v.den : ℤ) : ℤ) : ℚ)⟩
  | .otherT => none

/-! ## Constant evaluator: depth-bounded recursive evaluation

`ConstantEvaluator::evaluate(ASTNode)` dispatches on the node: constant
variable declarations recurse into their initializer under the per-instance
depth counter `m_depth` (fatal error 5210 past depth 32), general
expressions dispatch to the visit handlers.  The claims about this function
concern the declaration/identifier recursion, so the expression fragment
embedded here is the one that participates in constant-definition chains:
literals (whose `TypeProvider::forLiteral` type carries the value, turned
into a `TypedRational` by `constantToTypedValue`) and identifiers referring
to constant variable declarations.  The C++ recursion has no fuel; the
embedding adds an explicit fuel parameter (`none` = fuel exhausted) purely
so that the function is total over cyclic declaration graphs, and the
theorems show the result is fuel-independent once the depth bound fires. -/

/-- Initializer expressions participating in constant-definition chains:
a literal with a known rational value, or an identifier referencing the
constant variable declaration with the given index. -/
inductive CExpr where
  | lit (value : ℚ)
  | ident (declId : ℕ)
deriving DecidableEq, Repr

/-- A constant variable declaration: its optional initializer expression and
its optional resolved declared type (`varDecl->value()` / `varDecl->type()`). -/
structure CVarDecl where
  value : Option CExpr
  type : Option CType
deriving DecidableEq, Repr

/-- The mutable evaluator state: the memoization cache `m_values` (keyed by
declaration index), the recursion-depth counter `m_depth`, and whether the
fatal error 5210 ("Cyclic constant definition (or maximum recursion depth
exhausted).") has been reported, which in the C++ throws and abandons the
evaluation. -/
structure EvalState where
  values : List (ℕ × Option TypedRational)
  depth : ℕ
  fatalReported : Bool
deriving DecidableEq, Repr

/-- Cache lookup: `m_values.count(&node)` / `m_values.at(&node)`. -/
def lookupCache (vals : List (ℕ × Option TypedRational)) (d : ℕ) :
    Option (Option TypedRational) :=
  (vals.find? (fun p => p.1 = d)).map (fun p => p.2)

/-- Shallow embedding of `ConstantEvaluator::evaluate` on a constant variable
declaration node (index `d` into `env`), including the recursion into
initializer expressions.  Mirrors the source: cached values are returned;
a declaration without initializer or type caches `none`; otherwise the depth
counter is incremented, checked against 32 (reporting the fatal error and
abandoning evaluation — no cache write, no decrement — when exceeded), the
initializer is evaluated recursively (a literal yields its typed value, an
identifier evaluates the referenced constant declaration), the result is
converted to the declared type, cached, and the depth decremented.  The
outer `Option` is the added fuel: `none` means the fuel ran out before the
C++ control flow finished. -/
def evalDecl (env : List CVarDecl) :
    ℕ → ℕ → EvalState → Option (Option TypedRational × EvalState)
  | 0, _, _ => none
  | fuel + 1, d, st =>
    match lookupCache st.values d with
    | some v => some (v, st)
    | none =>
      match env.get? d with
      | none => some (none, st)
      | some decl =>
        match decl.value, decl.type with
        | some init, some ty =>
          let st1 : EvalState := { st with depth := st.depth + 1 }
          if 32 < st1.depth then
            some (none, { st1 with fatalReported := true })
          else
            match
              (match init with
               | .lit v => some (some (⟨rationalNumberType v, v⟩ : TypedRational), st1)
               | .ident dd => evalDecl env fuel dd st1) with
            | none => none
            | some (v, st2) =>
              if st2.fatalReported then some (none, st2)
              else
                let res := match v with
                  | none => none
                  | some tr => convertType tr.value ty
                some (res, { st2 with
                              values := (d, res) :: st2.values,
                              depth := st2.depth - 1 })
        | _, _ => some (none, { st with values := (d, none) :: st.values })

/-! ## Control-flow analyzer: data model -/

/-- A source location (`langutil::SourceLocation` restricted to one source
unit); `start`/`end` become `startPos`/`endPos`.  An invalid location is
represented as `none` on the owning node. -/
structure SrcLoc where
  startPos : ℕ
  endPos : ℕ
deriving DecidableEq, Repr

/-- The `VariableOccurrence::Kind` tags. -/
inductive OccKind where
  | declaration | assignment | access | ret | inlineAssembly
deriving DecidableEq, Repr

/-- A `VariableOccurrence`: its kind, the index of the referenced variable
declaration, and the optional source location of the occurrence
(`m_occurrence`).  `oid` models the identity of the C++ occurrence object,
so that distinct occurrences with equal fields stay distinct. -/
structure VarOccurrence where
  oid : ℕ
  kind : OccKind
  decl : ℕ
  occ : Option SrcLoc
deriving DecidableEq, Repr

/-- A `CFGNode`: ordered variable occurrences, successor (`exits`) and
predecessor (`entries`) node indices, and an optional source location. -/
structure CFGNode where
  variableOccurrences : List VarOccurrence
  exits : List ℕ
  entries : List ℕ
  location : Option SrcLoc
deriving DecidableEq, Repr

instance : Inhabited CFGNode := ⟨⟨[], [], [], none⟩⟩

/-- A control-flow graph: nodes addressed by their list index. -/
structure CFG where
  nodes : List CFGNode
deriving DecidableEq, Repr

/-- Node access; out-of-range indices (which do not occur in the C++, where
nodes are pointers) yield the empty node. -/
def CFG.node (g : CFG) (n : ℕ) : CFGNode := g.nodes.getD n default

/-- The forward edge relation of the graph: `b` is a successor of `a`. -/
def CFG.Edge (g : CFG) (a b : ℕ) : Prop := b ∈ (g.node a).exits

/-- Graph reachability along forward successor edges. -/
def CFG.Reaches (g : CFG) (a b : ℕ) : Prop := Relation.ReflTransGen g.Edge a b

/-- Where a variable's data lives (`Type::dataStoredIn`). -/
inductive DataLoc where
  | storage | calldata | other
deriving DecidableEq, Repr

/-- The facts about a `VariableDeclaration` the analyzer consults: data
location of its type, its name, and its declaration source location. -/
structure VarInfo where
  dataLoc : DataLoc
  name : String
  location : SrcLoc
deriving DecidableEq, Repr

/-- Diagnostic severity of the reports this analyzer emits. -/
inductive Severity where
  | typeError | warning
deriving DecidableEq, Repr

/-- A diagnostic sent to the error reporter: stable id, severity, primary
location, secondary (note, location) pairs, message text. -/
structure Diagnostic where
  errorId : ℕ
  severity : Severity
  loc : SrcLoc
  secondary : List (String × SrcLoc)
  msg : String
deriving DecidableEq, Repr

/-! ## Dataflow fixpoint for uninitialized accesses

`ControlFlowAnalyzer::checkUninitializedAccess`: the local `NodeInfo`
struct, the work-list fixpoint, and the reporting pass over the exit node's
flagged accesses.  Pointer-keyed `std::set<VariableOccurrence const*>`s are
duplicate-free lists (`List.insert` skips present elements just as
`std::set::insert` does); `std::set<VariableDeclaration const*>`s are
`Finset ℕ` of declaration indices.  The work-list `std::set<CFGNode const*>`
iterates in (unobservable) pointer order; it is modelled as a queue, which
changes only the processing order of the monotone fixpoint. -/

/-- Union of two occurrence sets (the `+=` of `propagateFrom`). -/
def occUnion (a b : List VarOccurrence) : List VarOccurrence :=
  b.foldl (fun acc o => acc.insert o) a

/-- The per-node dataflow state `NodeInfo`. -/
structure NodeInfo where
  unassignedVariablesAtEntry : Finset ℕ
  unassignedVariablesAtExit : Finset ℕ
  uninitializedVariableAccesses : List VarOccurrence
deriving DecidableEq

/-- The empty `NodeInfo` a `std::map` `operator[]` default-constructs. -/
def NodeInfo.empty : NodeInfo := ⟨∅, ∅, []⟩

instance : Inhabited NodeInfo := ⟨NodeInfo.empty⟩

/-- Embedding of `NodeInfo::propagateFrom`: merge the predecessor's
exit-state and flagged accesses into this node (set union) and report
whether anything new was added (size comparison, as in the source). -/
def NodeInfo.propagateFrom (self entryNode : NodeInfo) : NodeInfo × Bool :=
  let newEntry := self.unassignedVariablesAtEntry ∪ entryNode.unassignedVariablesAtExit
  let newAccesses :=
    occUnion self.uninitializedVariableAccesses entryNode.uninitializedVariableAccesses
  (⟨newEntry, self.unassignedVariablesAtExit, newAccesses⟩,
    decide (self.unassignedVariablesAtEntry.card < newEntry.card)
      || decide (self.uninitializedVariableAccesses.length < newAccesses.length))

/-- The switch body of step 4.5: replay one variable occurrence against the
running pair (unassigned-variable set, flagged-access set).  `Assignment`
removes the variable, `Declaration` inserts it, and `Access`/`Return`/
`InlineAssembly` (an intentional fallthrough in the source) flag the
occurrence when the variable is currently unassigned, leaving the set
unchanged. -/
def processOccurrence (s : Finset ℕ × List VarOccurrence) (vo : VarOccurrence) :
    Finset ℕ × List VarOccurrence :=
  match vo.kind with
  | .assignment => (s.1.erase vo.decl, s.2)
  | .inlineAssembly => if vo.decl ∈ s.1 then (s.1, s.2.insert vo) else s
  | .access => if vo.decl ∈ s.1 then (s.1, s.2.insert vo) else s
  | .ret => if vo.decl ∈ s.1 then (s.1, s.2.insert vo) else s
  | .declaration => (insert vo.decl s.1, s.2)

/-- Steps 4.3–4.6 for one node: starting from the unassigned-at-entry set,
replay the node's occurrences in program order; the resulting set becomes
the unassigned-at-exit state and the flagged accesses accumulate into the
node's `NodeInfo`. -/
def processNode (g : CFG) (n : ℕ) (ni : NodeInfo) : NodeInfo :=
  let folded := (g.node n).variableOccurrences.foldl processOccurrence
    (ni.unassignedVariablesAtEntry, ni.uninitializedVariableAccesses)
  ⟨ni.unassignedVariablesAtEntry, folded.1, folded.2⟩

/-- The fixpoint working state: the key set and contents of the
`std::map<CFGNode const*, NodeInfo> nodeInfos` (absent keys map to the
default-constructed empty info, as `operator[]` would create). -/
structure DFState where
  dom : Finset ℕ
  info : ℕ → NodeInfo

/-- Step 4.7: propagate a processed node's info to each successor, marking
the successor for (re-)traversal when propagation changed its state or the
successor had no `NodeInfo` yet. -/
def propagateToSuccessors (ni : NodeInfo) :
    List ℕ → DFState → DFState × List ℕ
  | [], st => (st, [])
  | ex :: rest, st =>
    let existed : Bool := decide (ex ∈ st.dom)
    let pr := (st.info ex).propagateFrom ni
    let st1 : DFState := ⟨insert ex st.dom, Function.update st.info ex pr.1⟩
    let res := propagateToSuccessors ni rest st1
    (res.1, if pr.2 || !existed then ex :: res.2 else res.2)

/-- The work-list fixpoint loop (step 4), fuel-bounded: pop a node, replay
its occurrences, propagate to successors, enqueue changed ones. -/
def dfLoop (g : CFG) : ℕ → List ℕ → DFState → DFState
  | 0, _, st => st
  | _ + 1, [], st => st
  | fuel + 1, n :: rest, st =>
    let ni := processNode g n (st.info n)
    let st1 : DFState := ⟨insert n st.dom, Function.update st.info n ni⟩
    let pr := propagateToSuccessors ni (g.node n).exits st1
    dfLoop g fuel (rest ++ pr.2) pr.1

/-- The dataflow fixpoint of `checkUninitializedAccess`, started from the
entry node with no `NodeInfo` present. -/
def uninitFixpoint (g : CFG) (fuel entry : ℕ) : DFState :=
  dfLoop g fuel [entry] ⟨∅, fun _ => NodeInfo.empty⟩

/-- Modelled from the spec: the strict weak order `VariableOccurrence::
operator<` used to sort the flagged accesses lives in the CFG header, which
is not part of the provided sources; per the spec the accesses are
"deterministically ordered, e.g. by source location".  Comparator: absent
occurrence locations first, then by (start, end) position, then by
declaration and occurrence identity as tie-breakers. -/
def occLe (a b : VarOccurrence) : Bool :=
  match a.occ, b.occ with
  | none, none =>
    decide (a.decl < b.decl) || (decide (a.decl = b.decl) && decide (a.oid ≤ b.oid))
  | none, some _ => true
  | some _, none => false
  | some la, some lb =>
    decide (la.startPos < lb.startPos)
      || (decide (la.startPos = lb.startPos)
          && (decide (la.endPos < lb.endPos)
              || (decide (la.endPos = lb.endPos)
                  && (decide (a.decl < b.decl)
                      || (decide (a.decl = b.decl) && decide (a.oid ≤ b.oid))))))

/-- Sorted insertion of one occurrence (helper for `sortOccurrences`). -/
def occInsertSorted (o : VarOccurrence) : List VarOccurrence → List VarOccurrence
  | [] => [o]
  | x :: xs => if occLe o x then o :: x :: xs else x :: occInsertSorted o xs

/-- The `ranges::sort` of step 5.1, embedded as an insertion sort (the
source's sort is only observable through the resulting order). -/
def sortOccurrences (l : List VarOccurrence) : List VarOccurrence :=
  l.foldr occInsertSorted []

/-- The hard type error 3464 of step 5.2.1, exactly as constructed in the
source: primary location at the occurrence when it has one (else at the
declaration); the secondary "The variable was declared here." note is
appended only when the occurrence has a source location. -/
def hardErrorDiag (vo : VarOccurrence) (v : VarInfo) : Diagnostic :=
  { errorId := 3464
    severity := .typeError
    loc := vo.occ.getD v.location
    secondary :=
      if vo.occ.isSome then [("The variable was declared here.", v.location)] else []
    msg := "This variable is of "
      ++ (if v.dataLoc = .storage then "storage" else "calldata")
      ++ " pointer type and can be "
      ++ (if vo.kind = .ret then "returned" else "accessed")
      ++ " without prior assignment, which would lead to undefined behaviour." }

/-- The warning 6321 of step 5.2.2 for unnamed return variables, optionally
qualified by the most derived contract's name. -/
def unnamedReturnWarning (v : VarInfo) (contractName : Option String) : Diagnostic :=
  { errorId := 6321
    severity := .warning
    loc := v.location
    secondary := []
    msg := "Unnamed return variable can remain unassigned"
      ++ (match contractName with
          | some nm =>
            " when the function is called when \"" ++ nm
              ++ "\" is the most derived contract."
          | none => ".")
      ++ " Add an explicit return with value to all non-reverting code paths or name the variable." }

/-- Whether the variable's type is a storage or calldata pointer
(`varDecl.type()->dataStoredIn(...)`). -/
def isStorageOrCalldata (v : VarInfo) : Bool :=
  decide (v.dataLoc = .storage) || decide (v.dataLoc = .calldata)

/-- Step 5.2, one flagged access at a time in sorted order: storage/calldata
variables get the hard error 3464; otherwise, with a non-empty body and an
unnamed variable, the warning 6321 is emitted unless the declaration is
already in `m_unassignedReturnVarsAlreadyWarnedFor` (into which it is
inserted); all remaining cases report nothing. -/
def reportLoop (vars : ℕ → VarInfo) (emptyBody : Bool) (contractName : Option String) :
    List VarOccurrence → Finset ℕ → List Diagnostic × Finset ℕ
  | [], warned => ([], warned)
  | vo :: rest, warned =>
    let varDecl := vars vo.decl
    if isStorageOrCalldata varDecl then
      let res := reportLoop vars emptyBody contractName rest warned
      (hardErrorDiag vo varDecl :: res.1, res.2)
    else if !emptyBody && decide (varDecl.name = "") then
      if vo.decl ∈ warned then reportLoop vars emptyBody contractName rest warned
      else
        let res := reportLoop vars emptyBody contractName rest (insert vo.decl warned)
        (unnamedReturnWarning varDecl contractName :: res.1, res.2)
    else reportLoop vars emptyBody contractName rest warned

/-- Shallow embedding of `ControlFlowAnalyzer::checkUninitializedAccess`:
run the dataflow fixpoint from the entry node, then report — in sorted
order — the flagged uninitialized accesses recorded in the exit node's
`NodeInfo`.  `warned` threads the analyzer-instance set
`m_unassignedReturnVarsAlreadyWarnedFor`. -/
def checkUninitializedAccess (g : CFG) (vars : ℕ → VarInfo) (fuel entry exitNode : ℕ)
    (emptyBody : Bool) (contractName : Option String) (warned : Finset ℕ) :
    List Diagnostic × Finset ℕ :=
  let exitInfo := (uninitFixpoint g fuel entry).info exitNode
  if exitInfo.uninitializedVariableAccesses = [] then ([], warned)
  else
    let uninitializedAccessesOrdered :=
      sortOccurrences exitInfo.uninitializedVariableAccesses
    reportLoop vars emptyBody contractName uninitializedAccessesOrdered warned

/-! ## Unreachability detector -/

/-- One expansion step of `util::BreadthFirstSearch`: add every child of
every visited node. -/
def bfsStep (children : ℕ → List ℕ) (s : Finset ℕ) : Finset ℕ :=
  s ∪ s.biUnion (fun n => (children n).toFinset)

/-- Iterated expansion; with as many rounds as the graph has nodes this is
the breadth-first-search visited set. -/
def bfsIter (children : ℕ → List ℕ) : ℕ → Finset ℕ → Finset ℕ
  | 0, s => s
  | k + 1, s => bfsIter children k (bfsStep children s)

/-- The forward BFS of `checkUnreachable` step 1: all nodes reachable from
the entry node along successor edges. -/
def reachableSet (g : CFG) (entry : ℕ) : Finset ℕ :=
  bfsIter (fun n => (g.node n).exits) g.nodes.length {entry}

/-- The backward BFS of step 2: all nodes visited when following
predecessor edges from the exit, revert and transaction-return nodes. -/
def backwardVisited (g : CFG) (exitNode revertNode transactionReturn : ℕ) : Finset ℕ :=
  bfsIter (fun n => (g.node n).entries) g.nodes.length
    {exitNode, revertNode, transactionReturn}

/-- Strict location order of `std::set<SourceLocation>`: lexicographic on
(start, end) within one source unit. -/
def locLt (a b : SrcLoc) : Bool :=
  decide (a.startPos < b.startPos)
    || (decide (a.startPos = b.startPos) && decide (a.endPos < b.endPos))

/-- Ordered-unique insertion into a sorted location list (the behaviour of
`std::set<SourceLocation>::insert`). -/
def locInsert (l : SrcLoc) : List SrcLoc → List SrcLoc
  | [] => [l]
  | x :: xs =>
    if locLt l x then l :: x :: xs
    else if l = x then x :: xs
    else x :: locInsert l xs

/-- Build the sorted duplicate-free `std::set<SourceLocation> unreachable`
from the locations recorded during the backward BFS. -/
def locSetList (ls : List SrcLoc) : List SrcLoc :=
  ls.foldl (fun acc l => locInsert l acc) []

/-- The locations recorded by `checkUnreachable` step 2: every node visited
by the backward BFS that is not forward-reachable and has a valid location,
collected into the sorted location set.  The nodes are enumerated in index
order (nodes outside the index range carry no location); since the result
is a set, the enumeration order is immaterial. -/
def unreachableLocs (g : CFG) (entry exitNode revertNode transactionReturn : ℕ) :
    List SrcLoc :=
  locSetList
    ((List.range g.nodes.length).filterMap
      (fun n =>
        if n ∈ backwardVisited g exitNode revertNode transactionReturn
            ∧ n ∉ reachableSet g entry then
          (g.node n).location
        else none))

/-- The coalescing inner loop of step 3.2: extend the current merged range
while the next recorded location starts at or before its end. -/
def mergeGroup (cur : SrcLoc) : List SrcLoc → List SrcLoc
  | [] => [cur]
  | l :: rest =>
    if l.startPos ≤ cur.endPos then
      mergeGroup ⟨cur.startPos, max cur.endPos l.endPos⟩ rest
    else cur :: mergeGroup l rest

/-- Step 3: merge the sorted recorded locations into maximal ranges. -/
def mergeLocs : List SrcLoc → List SrcLoc
  | [] => []
  | l :: rest => mergeGroup l rest

/-- The "Unreachable code." warning 5740. -/
def unreachableWarning (l : SrcLoc) : Diagnostic :=
  ⟨5740, .warning, l, [], "Unreachable code."⟩

/-- Step 3.3: one warning per merged range, skipping (and otherwise
recording into) `m_unreachableLocationsAlreadyWarnedFor`. -/
def warnLoop (warned : Finset SrcLoc) :
    List SrcLoc → List Diagnostic × Finset SrcLoc
  | [] => ([], warned)
  | m :: rest =>
    if m ∈ warned then warnLoop warned rest
    else
      let res := warnLoop (insert m warned) rest
      (unreachableWarning m :: res.1, res.2)

/-- Shallow embedding of `ControlFlowAnalyzer::checkUnreachable`: forward
BFS from the entry, backward BFS from the sink nodes recording valid
locations of unreached nodes, merge, and warn once per merged range.
`warned` threads the analyzer-instance set
`m_unreachableLocationsAlreadyWarnedFor`. -/
def checkUnreachable (g : CFG) (entry exitNode revertNode transactionReturn : ℕ)
    (warned : Finset SrcLoc) : List Diagnostic × Finset SrcLoc :=
  warnLoop warned (mergeLocs (unreachableLocs g entry exitNode revertNode transactionReturn))

/-! ## Concrete fixtures

Small concrete inputs used by the theorems below to evaluate the embedded
functions at specific points. -/

/-- The two mutually recursive constant declarations `const a = b;
const b = a;` (each typed, each initialized by an identifier referencing
the other). -/
def cyclicConstEnv : List CVarDecl :=
  [⟨some (.ident 1), some (.rationalT 0)⟩, ⟨some (.ident 0), some (.rationalT 0)⟩]

/-- An acyclic chain of 34 constant declarations, each initialized from the
next, 33 identifier hops deep — deeper than the depth bound 32. -/
def deepConstEnv : List CVarDecl :=
  (List.range 33).map (fun i => ⟨some (.ident (i + 1)), some (.rationalT 0)⟩)
    ++ [⟨some (.lit 1), some (.rationalT 0)⟩]

/-- An acyclic chain of 32 constant declarations — exactly at the depth
bound, so evaluation succeeds. -/
def okConstEnv : List CVarDecl :=
  (List.range 31).map (fun i => ⟨some (.ident (i + 1)), some (.rationalT 0)⟩)
    ++ [⟨some (.lit 1), some (.rationalT 0)⟩]

/-- A two-node CFG: the entry node declares variable 0 and then accesses it
through an occurrence carrying no source location; node 1 is the exit. -/
def gOccNoLoc : CFG :=
  ⟨[⟨[⟨0, .declaration, 0, none⟩, ⟨1, .access, 0, none⟩], [1], [], none⟩,
    ⟨[], [], [0], none⟩]⟩

/-- Variable table mapping every declaration to a named storage-pointer
variable declared at source range [5, 9]. -/
def varsStorage : ℕ → VarInfo := fun _ => ⟨.storage, "x", ⟨5, 9⟩⟩

/-- A CFG in which the only read-before-assignment sits on a branch that
ends in the revert sink (node 3) and never reaches the exit (node 4):
entry 0 branches to 1 (declare-then-access variable 0, then revert) and to
2 (nothing, then exit). -/
def gRevertPath : CFG :=
  ⟨[⟨[], [1, 2], [], none⟩,
    ⟨[⟨0, .declaration, 0, none⟩, ⟨1, .access, 0, some ⟨10, 12⟩⟩], [3], [0], none⟩,
    ⟨[], [4], [0], none⟩,
    ⟨[], [], [1], none⟩,
    ⟨[], [], [2], none⟩]⟩

/-- A five-node CFG whose node 4 has a valid location and no edges at all:
it is unreachable from the entry 0, but also invisible to the backward
traversal from the exit 1, revert 2 and transaction-return 3 sinks. -/
def gIsolated : CFG :=
  ⟨[⟨[], [1], [], some ⟨0, 3⟩⟩,
    ⟨[], [], [0], none⟩,
    ⟨[], [], [], none⟩,
    ⟨[], [], [], none⟩,
    ⟨[], [], [], some ⟨20, 30⟩⟩]⟩

/-- A five-node CFG whose node 4 has a valid location, is unreachable from
the entry 0, and feeds into the exit 1 (so the backward traversal sees it). -/
def gDeadBlock : CFG :=
  ⟨[⟨[], [1], [], some ⟨0, 3⟩⟩,
    ⟨[], [], [0, 4], none⟩,
    ⟨[], [], [], none⟩,
    ⟨[], [], [], none⟩,
    ⟨[], [1], [], some ⟨20, 30⟩⟩]⟩

/-! ## Theorems -/

/-- The fuel-indexed most-significant-bit computation agrees with `⌊log₂⌋`
once the fuel is at least the argument. -/
theorem msbAux_eq_log : ∀ fuel x, x ≤ fuel → msbAux fuel x = Nat.log 2 x := by
  intro fuel
  induction fuel with
  | zero =>
    intro x hx
    have hx0 : x = 0 := by omega
    subst hx0
    simp [msbAux]
  | succ f ih =>
    intro x hx
    rw [msbAux]
    by_cases h2 : 2 ≤ x
    · have hdiv : x / 2 < x := Nat.div_lt_self (by omega) (by omega)
      rw [if_pos h2, ih (x / 2) (by omega)]
      conv_rhs => rw [Nat.log]
      simp [h2]
    · rw [if_neg h2, eq_comm, Nat.log_eq_zero_iff]
      omega

/-- The embedded `msb` is `⌊log₂⌋`. -/
theorem msb_eq_log (x : ℕ) : msb x = Nat.log 2 x :=
  msbAux_eq_log x x le_rfl

/-- C4 (amended): for every bigint `base > 0` and non-negative `exponent`,
`fitsPrecisionExp` never returns true when the exact result exceeds 4096
bits (returning true implies `base ^ exponent < 2 ^ 4096`), and concretely,
with `msb` the index of the base's most significant set bit, it returns
true when the base is 1 (equivalently `msb = 0`; the base-0 case returns
true before `msb` is consulted), false when `msb > 4096`, and otherwise
true iff `exponent * (msb + 1) ≤ 4096`.  The converse of the soundness
direction fails: see `fitsPrecisionExp_incomplete`. -/
theorem fitsPrecisionExp_sound_characterization (base exp : ℤ)
    (hb : 0 < base) (he : 0 ≤ exp) :
    (fitsPrecisionExp base exp = true → base.toNat ^ exp.toNat < 2 ^ 4096)
    ∧ (msb base.toNat = 0 ↔ base = 1)
    ∧ fitsPrecisionExp base exp =
        (if msb base.toNat = 0 then true
         else if 4096 < msb base.toNat then false
         else decide (exp * (msb base.toNat + 1 : ℤ) ≤ 4096)) := by
  have hbne : ¬ base = 0 := by omega
  have hchar : fitsPrecisionExp base exp =
      (if msb base.toNat = 0 then true
       else if 4096 < msb base.toNat then false
       else decide (exp * (msb base.toNat + 1 : ℤ) ≤ 4096)) := by
    simp [fitsPrecisionExp, hbne]
  have hmsb0 : msb base.toNat = 0 ↔ base = 1 := by
    rw [msb_eq_log, Nat.log_eq_zero_iff]
    omega
  refine ⟨?_, hmsb0, hchar⟩
  intro hfit
  rw [hchar] at hfit
  by_cases h1 : msb base.toNat = 0
  · have : base = 1 := hmsb0.mp h1
    subst this
    simpa using Nat.one_lt_two_pow_iff.mpr (by decide)
  · rw [if_neg h1] at hfit
    by_cases hbig : 4096 < msb base.toNat
    · rw [if_pos hbig] at hfit
      exact absurd hfit (by decide)
    · rw [if_neg hbig, decide_eq_true_eq] at hfit
      have hlt : base.toNat < 2 ^ (msb base.toNat + 1) := by
        rw [msb_eq_log]
        exact Nat.lt_pow_succ_log_self (by omega) base.toNat
      rcases Nat.eq_zero_or_pos exp.toNat with he0 | hepos
      · rw [he0, pow_zero]
        exact Nat.one_lt_two_pow_iff.mpr (by decide)
      · have hexp : (msb base.toNat + 1) * exp.toNat ≤ 4096 := by
          have hcast : ((exp.toNat : ℤ)) = exp := Int.toNat_of_nonneg he
          rw [← hcast] at hfit
          have h2 : exp.toNat * (msb base.toNat + 1) ≤ 4096 := by exact_mod_cast hfit
          rw [Nat.mul_comm]
          exact h2
        calc base.toNat ^ exp.toNat
            < (2 ^ (msb base.toNat + 1)) ^ exp.toNat :=
              Nat.pow_lt_pow_left hlt (by omega)
          _ = 2 ^ ((msb base.toNat + 1) * exp.toNat) := by rw [← pow_mul]
          _ ≤ 2 ^ 4096 := Nat.pow_le_pow_right (by omega) hexp

/-- C4 witness: a concrete instantiation of the soundness direction. -/
theorem fitsPrecisionExp_sound_characterization_witness : (3 : ℕ) ^ 10 < 2 ^ 4096 :=
  (fitsPrecisionExp_sound_characterization 3 10 (by decide) (by decide)).1 (by decide)

/-- C4 counterexample: the claim's completeness direction ("returns true
whenever the exact bit-length of `base ^ exponent` is at most 4096") fails
at `base = 3`, `exponent = 2049`: the guard rejects, yet
`3 ^ 2049 < 2 ^ 4096`, i.e. the exact result fits into 4096 bits. -/
theorem fitsPrecisionExp_incomplete :
    fitsPrecisionExp 3 2049 = false ∧ (3 : ℕ) ^ 2049 < 2 ^ 4096 := by
  constructor
  · decide
  · have hA : ((3 : ℕ) ^ 5) ^ 409 < ((2 : ℕ) ^ 8) ^ 409 :=
      Nat.pow_lt_pow_left (by decide) (by decide)
    have hB : (3 : ℕ) ^ 4 ≤ (2 : ℕ) ^ 7 := by decide
    calc (3 : ℕ) ^ 2049 = ((3 : ℕ) ^ 5) ^ 409 * (3 : ℕ) ^ 4 := by
          rw [← pow_mul, ← pow_add]
      _ ≤ ((3 : ℕ) ^ 5) ^ 409 * (2 : ℕ) ^ 7 := Nat.mul_le_mul_left _ hB
      _ < ((2 : ℕ) ^ 8) ^ 409 * (2 : ℕ) ^ 7 :=
          Nat.mul_lt_mul_of_lt_of_le hA le_rfl (by decide)
      _ = 2 ^ 3279 := by rw [← pow_mul, ← pow_add]
      _ ≤ 2 ^ 4096 := Nat.pow_le_pow_right (by decide) (by decide)

/-- C9: division and modulo by zero yield no value, for every rational
left operand. -/
theorem evaluateBinaryOperator_div_mod_zero (x : ℚ) :
    evaluateBinaryOperator .div x 0 = none
      ∧ evaluateBinaryOperator .mod x 0 = none := by
  constructor <;> simp [evaluateBinaryOperator]

/-- The parity bit `abs(exp) & 1` of a bigint, as the evaluator's `-1` base
case computes it. -/
theorem int_land_abs_one (n : ℤ) : Int.land |n| 1 = if Even n then 0 else 1 := by
  rw [Int.abs_eq_natAbs]
  have hland : Int.land (n.natAbs : ℤ) 1 = ((n.natAbs &&& 1 : ℕ) : ℤ) := rfl
  rw [hland, Nat.and_one_is_mod]
  by_cases he : Even n
  · rw [if_pos he]
    have : n.natAbs % 2 = 0 := Nat.even_iff.mp (Int.natAbs_even.mpr he)
    simp [this]
  · rw [if_neg he]
    have : n.natAbs % 2 = 1 :=
      Nat.odd_iff.mp (Int.natAbs_odd.mpr (Int.not_even_iff_odd.mp he))
    simp [this]

/-- The `optimizedPow` lambda computes exactly `base ^ exponent`; the `1`
and `-1` branches are pure efficiency special cases. -/
theorem optimizedPow_eq (b : ℤ) (e : ℕ) : optimizedPow b e = b ^ e := by
  unfold optimizedPow
  by_cases h1 : b = 1
  · simp [h1]
  · by_cases h2 : b = -1
    · rw [if_neg h1, if_pos h2, h2, Nat.and_one_is_mod]
      rcases Nat.even_or_odd e with he | ho
      · rw [Nat.even_iff.mp he, Even.neg_one_pow he]
        norm_num
      · rw [Nat.odd_iff.mp ho, Odd.neg_one_pow ho]
        norm_num
    · rw [if_neg h1, if_neg h2]

/-- C5: the full case analysis of the exponentiation operator: no value for
fractional exponents; `1` for exponent `0`; the base itself for bases `0`
and `1`; `±1` by exponent parity for base `-1` (no precision restriction in
these cases); otherwise no value when `|exponent|` exceeds `uint32::max` or
the precision guard rejects the base's numerator or denominator, else the
fraction obtained by raising numerator and denominator independently to
`|exponent|`, inverted for negative exponents. -/
theorem evaluateBinaryOperator_exp_spec (l r : ℚ) :
    (r.den ≠ 1 → evaluateBinaryOperator .exp l r = none)
    ∧ (r = 0 → evaluateBinaryOperator .exp l r = some 1)
    ∧ (r.den = 1 → r ≠ 0 → l = 0 ∨ l = 1 → evaluateBinaryOperator .exp l r = some l)
    ∧ (r.den = 1 → r ≠ 0 → l = -1 →
        evaluateBinaryOperator .exp l r = some (if Even r.num then 1 else -1))
    ∧ (r.den = 1 → l ≠ 0 → l ≠ 1 → l ≠ -1 → (uint32max : ℤ) < |r.num| →
        evaluateBinaryOperator .exp l r = none)
    ∧ (r.den = 1 → r ≠ 0 → l ≠ 0 → l ≠ 1 → l ≠ -1 → |r.num| ≤ (uint32max : ℤ) →
        (fitsPrecisionExp |l.num| |r.num| = false
          ∨ fitsPrecisionExp (l.den : ℤ) |r.num| = false) →
        evaluateBinaryOperator .exp l r = none)
    ∧ (r.den = 1 → r ≠ 0 → l ≠ 0 → l ≠ 1 → l ≠ -1 → |r.num| ≤ (uint32max : ℤ) →
        fitsPrecisionExp |l.num| |r.num| = true →
        fitsPrecisionExp (l.den : ℤ) |r.num| = true →
        evaluateBinaryOperator .exp l r =
          some (if 0 ≤ r.num then
                  makeRational (l.num ^ |r.num|.toNat) ((l.den : ℤ) ^ |r.num|.toNat)
                else
                  makeRational ((l.den : ℤ) ^ |r.num|.toNat) (l.num ^ |r.num|.toNat))) := by
  have habsden : |(l.den : ℤ)| = (l.den : ℤ) := abs_of_nonneg (by positivity)
  have habs : ((|r.num|.toNat : ℕ) : ℤ) = |r.num| := Int.toNat_of_nonneg (abs_nonneg r.num)
  refine ⟨?_, ?_, ?_, ?_, ?_, ?_, ?_⟩
  · intro hden
    simp [evaluateBinaryOperator, hden]
  · intro hr
    subst hr
    norm_num [evaluateBinaryOperator]
  · intro hden hr hl
    have hnum : r.num ≠ 0 := fun h => hr (Rat.num_eq_zero.mp h)
    simp [evaluateBinaryOperator, hden, hnum, hl]
  · intro hden hr hl
    have hnum : r.num ≠ 0 := fun h => hr (Rat.num_eq_zero.mp h)
    subst hl
    simp only [evaluateBinaryOperator]
    rw [if_neg (by simp [hden]), if_neg hnum, if_neg (by norm_num),
      if_pos trivial, int_land_abs_one]
    by_cases he : Even r.num
    · rw [if_pos he, if_pos he]
      norm_num
    · rw [if_neg he, if_neg he]
      norm_num
  · intro hden hl0 hl1 hlm1 hbig
    simp only [evaluateBinaryOperator]
    rw [if_neg (by simp [hden])]
    have hnum : r.num ≠ 0 := by
      intro h
      rw [h] at hbig
      simp [uint32max] at hbig
    rw [if_neg hnum, if_neg (by tauto), if_neg hlm1, if_pos hbig]
  · intro hden hr hl0 hl1 hlm1 hsmall hguard
    have hnum : r.num ≠ 0 := fun h => hr (Rat.num_eq_zero.mp h)
    simp only [evaluateBinaryOperator]
    rw [if_neg (by simp [hden]), if_neg hnum, if_neg (by tauto), if_neg hlm1,
      if_neg (not_lt.mpr hsmall), if_pos]
    rw [habsden, habs]
    rcases hguard with h | h
    · exact Or.inl (by simp [h])
    · exact Or.inr (by simp [h])
  · intro hden hr hl0 hl1 hlm1 hsmall hfit1 hfit2
    have hnum : r.num ≠ 0 := fun h => hr (Rat.num_eq_zero.mp h)
    simp only [evaluateBinaryOperator]
    rw [if_neg (by simp [hden]), if_neg hnum, if_neg (by tauto), if_neg hlm1,
      if_neg (not_lt.mpr hsmall),
      if_neg (by rw [habsden, habs]; simp [hfit1, hfit2]),
      optimizedPow_eq, optimizedPow_eq]
    by_cases h0 : 0 ≤ r.num
    · rw [if_pos h0, if_pos h0]
    · rw [if_neg h0, if_neg h0]

/-- C5 witness: each case of `evaluateBinaryOperator_exp_spec` instantiated
at concrete operands. -/
theorem evaluateBinaryOperator_exp_spec_witness :
    evaluateBinaryOperator .exp (mkRat 3 2) (mkRat 1 2) = none
    ∧ evaluateBinaryOperator .exp (mkRat 3 2) 0 = some 1
    ∧ evaluateBinaryOperator .exp 1 5 = some 1
    ∧ evaluateBinaryOperator .exp (-1) 3 = some (-1)
    ∧ evaluateBinaryOperator .exp 2 2049 = none
    ∧ evaluateBinaryOperator .exp (mkRat 3 2) 2 = some (makeRational 9 4) := by
  refine ⟨?_, ?_, ?_, ?_, ?_, ?_⟩
  · exact (evaluateBinaryOperator_exp_spec (mkRat 3 2) (mkRat 1 2)).1 (by decide)
  · exact (evaluateBinaryOperator_exp_spec (mkRat 3 2) 0).2.1 rfl
  · exact (evaluateBinaryOperator_exp_spec 1 5).2.2.1 (by decide)
      (by norm_num) (Or.inr rfl)
  · have h := (evaluateBinaryOperator_exp_spec (-1) 3).2.2.2.1 (by decide)
      (by norm_num) rfl
    rw [if_neg (by decide)] at h
    exact h
  · exact (evaluateBinaryOperator_exp_spec 2 2049).2.2.2.2.2.1 (by decide)
      (by norm_num) (by norm_num) (by norm_num) (by norm_num) (by decide)
      (Or.inl (by decide))

  · have h := (evaluateBinaryOperator_exp_spec (mkRat 3 2) 2).2.2.2.2.2.2
      (by decide) (by norm_num [mkRat]) (by norm_num [mkRat])
      (by norm_num [mkRat]) (by norm_num [mkRat]) (by decide) (by decide)
      (by decide)
    rw [if_pos (by decide)] at h
    have e1 : (mkRat 3 2).num ^ |(2 : ℚ).num|.toNat = 9 := by decide
    have e2 : ((mkRat 3 2).den : ℤ) ^ |(2 : ℚ).num|.toNat = 4 := by decide
    rw [e1, e2] at h
    exact h

/-- C7: type-directed bounds conversion: a rational-number target stores
the value as-is; a bounded integer target succeeds with the truncated
integer quotient exactly when the value is within the inclusive bounds and
fails otherwise (in particular, integral values round-trip unchanged when
in bounds and are rejected when out of bounds); any other target category
fails. -/
theorem convertType_spec (v : ℚ) (lo hi : ℤ) :
    (∀ val : ℚ, convertType v (.rationalT val) = some ⟨.rationalT v, v⟩)
    ∧ ((lo : ℚ) ≤ v → v ≤ (hi : ℚ) →
        convertType v (.integerT lo hi) =
          some ⟨.integerT lo hi, ((Int.tdiv v.num (v.den : ℤ) : ℤ) : ℚ)⟩)
    ∧ ((hi : ℚ) < v ∨ v < (lo : ℚ) → convertType v (.integerT lo hi) = none)
    ∧ convertType v .otherT = none
    ∧ (∀ n : ℤ, lo ≤ n → n ≤ hi →
        convertType (n : ℚ) (.integerT lo hi) = some ⟨.integerT lo hi, (n : ℚ)⟩)
    ∧ (∀ n : ℤ, hi < n ∨ n < lo → convertType (n : ℚ) (.integerT lo hi) = none) := by
  refine ⟨?_, ?_, ?_, ?_, ?_, ?_⟩
  · intro val
    simp [convertType, rationalNumberType]
  · intro h1 h2
    rw [convertType, if_neg (by push_neg; exact ⟨h2, h1⟩)]
  · intro h
    rw [convertType, if_pos h]
  · rfl
  · intro n h1 h2
    rw [convertType,
      if_neg (by
        push_neg
        constructor
        · exact_mod_cast h2
        · exact_mod_cast h1)]
    rw [Rat.num_intCast, Rat.den_intCast]
    norm_num
  · intro n h
    rw [convertType, if_pos]
    rcases h with h | h
    · exact Or.inl (by exact_mod_cast h)
    · exact Or.inr (by exact_mod_cast h)

/-- C7 witness: the integral round-trip at `n = 7` into the byte range. -/
theorem convertType_spec_witness :
    convertType ((7 : ℤ) : ℚ) (.integerT 0 255) =
      some ⟨.integerT 0 255, ((7 : ℤ) : ℚ)⟩ :=
  (convertType_spec ((7 : ℤ) : ℚ) 0 255).2.2.2.2.1 7 (by decide) (by decide)

/-- A power of two below a number bounds the most significant bit index
from below. -/
theorem le_msb_of_pow_le {k x : ℕ} (hx : x ≠ 0) (h : 2 ^ k ≤ x) : k ≤ msb x := by
  rw [msb_eq_log]
  exact (Nat.pow_le_iff_le_log (by norm_num) hx).mp h

/-- C8: shifting a non-negative integral rational left and then arithmetic-
right by the same integral in-range amount recovers the original value,
whenever the left shift produced a value (i.e. the precision guard did not
reject it). -/
theorem evaluateBinaryOperator_shift_roundtrip (x s y : ℚ)
    (hxden : x.den = 1) (hx : 0 ≤ x)
    (hsden : s.den = 1) (hs0 : 0 ≤ s) (hsmax : s ≤ (uint32max : ℚ))
    (h : evaluateBinaryOperator .shl x s = some y) :
    evaluateBinaryOperator .sar y s = some x := by
  simp only [evaluateBinaryOperator] at h
  rw [if_neg (by simp [hxden, hsden]), if_neg (not_lt.mpr hs0),
    if_neg (not_lt.mpr hsmax)] at h
  by_cases hx0 : x.num = 0
  · rw [if_pos hx0] at h
    have hy : y = 0 := (Option.some.inj h).symm
    have hxz : x = 0 := Rat.num_eq_zero.mp hx0
    subst hy hxz
    simp only [evaluateBinaryOperator]
    rw [if_neg (by norm_num [hsden]), if_neg (not_lt.mpr hs0),
      if_neg (not_lt.mpr hsmax), if_pos (by norm_num)]
  · rw [if_neg hx0] at h
    cases hguard : fitsPrecisionBase2 x.num.natAbs s.num.toNat with
    | false =>
      rw [if_pos (by simp [hguard])] at h
      exact absurd h (by simp)
    | true =>
      rw [if_neg (by simp [hguard])] at h
      have hy : y = ((x.num * 2 ^ s.num.toNat : ℤ) : ℚ) := (Option.some.inj h).symm
      subst hy
      have hxpos : 0 < x.num := lt_of_le_of_ne (Rat.num_nonneg.mpr hx) (Ne.symm hx0)
      have hyden : ((x.num * 2 ^ s.num.toNat : ℤ) : ℚ).den = 1 := Rat.den_intCast _
      have hynum : ((x.num * 2 ^ s.num.toNat : ℤ) : ℚ).num = x.num * 2 ^ s.num.toNat :=
        Rat.num_intCast _
      have hynum0 : x.num * 2 ^ s.num.toNat ≠ 0 := by positivity
      simp only [evaluateBinaryOperator]
      rw [if_neg (by rw [hyden, hsden]; simp), if_neg (not_lt.mpr hs0),
        if_neg (not_lt.mpr hsmax), hynum, if_neg hynum0]
      have hnatabs : (x.num * 2 ^ s.num.toNat).natAbs = x.num.natAbs * 2 ^ s.num.toNat := by
        rw [Int.natAbs_mul]
        congr 1
        rw [Int.natAbs_pow]
        norm_num
      have hmge : s.num.toNat ≤ msb ((x.num * 2 ^ s.num.toNat).natAbs) := by
        rw [hnatabs]
        refine le_msb_of_pow_le (by positivity) ?_
        exact Nat.le_mul_of_pos_left _ (Int.natAbs_pos.mpr hx0)
      rw [if_neg (not_lt.mpr hmge),
        if_neg (not_lt.mpr (by positivity : (0 : ℤ) ≤ x.num * 2 ^ s.num.toNat)),
        Int.mul_tdiv_cancel x.num (pow_ne_zero _ two_ne_zero),
        (Rat.den_eq_one_iff x).mp hxden]

/-- C8 witness: `3 << 2 = 12` and `12 >> 2 = 3`. -/
theorem evaluateBinaryOperator_shift_roundtrip_witness :
    evaluateBinaryOperator .sar 12 2 = some 3 :=
  evaluateBinaryOperator_shift_roundtrip 3 2 12 (by decide) (by norm_num)
    (by decide) (by norm_num) (by norm_num [uint32max])
    (by with_unfolding_all decide)

/-- Adding fuel never changes an evaluation that already finished: the
depth counter, not the fuel, is what bounds the recursion. -/
theorem evalDecl_mono (env : List CVarDecl) :
    ∀ fuel d st r, evalDecl env fuel d st = some r →
      evalDecl env (fuel + 1) d st = some r := by
  intro fuel
  induction fuel with
  | zero =>
    intro d st r h
    exact absurd h (by simp [evalDecl])
  | succ f ih =>
    intro d st r h
    rw [evalDecl] at h
    rw [evalDecl]
    cases hc : lookupCache st.values d with
    | some v => simp only [hc] at h ⊢; exact h
    | none =>
      simp only [hc] at h ⊢
      cases he : env.get? d with
      | none => simp only [he] at h ⊢; exact h
      | some decl =>
        simp only [he] at h ⊢
        cases hval : decl.value with
        | none => cases htyp : decl.type <;> simp only [hval, htyp] at h ⊢ <;> exact h
        | some init =>
          cases htyp : decl.type with
          | none => simp only [hval, htyp] at h ⊢; exact h
          | some ty =>
            simp only [hval, htyp] at h ⊢
            by_cases hd : 32 < st.depth + 1
            · simp only [if_pos hd] at h ⊢; exact h
            · simp only [if_neg hd] at h ⊢
              cases init with
              | lit v => exact h
              | ident dd =>
                dsimp only at h ⊢
                cases hin : evalDecl env f dd { st with depth := st.depth + 1 } with
                | none => rw [hin] at h; exact absurd h (by simp)
                | some p =>
                  rw [hin] at h
                  rw [ih dd { st with depth := st.depth + 1 } p hin]
                  exact h

/-- Fuel monotonicity, transitive form. -/
theorem evalDecl_fuel_le (env : List CVarDecl) {f1 f2 d st r} (hle : f1 ≤ f2)
    (h : evalDecl env f1 d st = some r) : evalDecl env f2 d st = some r := by
  obtain ⟨k, rfl⟩ := Nat.exists_eq_add_of_le hle
  clear hle
  induction k with
  | zero => simpa using h
  | succ k ihk =>
    rw [Nat.add_succ]
    exact evalDecl_mono env (f1 + k) d st r ihk

/-- On every completed evaluation that did not report the fatal error, the
depth counter is restored to its initial value (each increment on entering
a declaration's initializer is matched by the decrement on exit). -/
theorem evalDecl_depth_restored (env : List CVarDecl) :
    ∀ fuel d st v st', evalDecl env fuel d st = some (v, st') →
      st'.fatalReported = false → st'.depth = st.depth := by
  intro fuel
  induction fuel with
  | zero =>
    intro d st v st' h
    exact absurd h (by simp [evalDecl])
  | succ f ih =>
    intro d st v st' h hfatal
    rw [evalDecl] at h
    cases hc : lookupCache st.values d with
    | some w =>
      simp only [hc, Option.some.injEq, Prod.mk.injEq] at h
      rw [← h.2]
    | none =>
      simp only [hc] at h
      cases he : env.get? d with
      | none =>
        simp only [he, Option.some.injEq, Prod.mk.injEq] at h
        rw [← h.2]
      | some decl =>
        simp only [he] at h
        cases hval : decl.value with
        | none =>
          cases htyp : decl.type <;>
            simp only [hval, htyp, Option.some.injEq, Prod.mk.injEq] at h <;>
            rw [← h.2]
        | some init =>
          cases htyp : decl.type with
          | none =>
            simp only [hval, htyp, Option.some.injEq, Prod.mk.injEq] at h
            rw [← h.2]
          | some ty =>
            simp only [hval, htyp] at h
            by_cases hd : 32 < st.depth + 1
            · simp only [if_pos hd, Option.some.injEq, Prod.mk.injEq] at h
              rw [← h.2] at hfatal
              exact absurd hfatal (by simp)
            · simp only [if_neg hd] at h
              cases init with
              | lit v0 =>
                dsimp only at h
                by_cases hf1 : st.fatalReported = true
                · rw [if_pos hf1] at h
                  simp only [Option.some.injEq, Prod.mk.injEq] at h
                  rw [← h.2] at hfatal
                  rw [hfatal] at hf1
                  exact absurd hf1 (by simp)
                · rw [if_neg hf1] at h
                  simp only [Option.some.injEq, Prod.mk.injEq] at h
                  rcases h with ⟨-, h2⟩
                  rw [← h2]
                  simp
              | ident dd =>
                dsimp only at h
                cases hin : evalDecl env f dd { st with depth := st.depth + 1 } with
                | none => rw [hin] at h; exact absurd h (by simp)
                | some p =>
                  rw [hin] at h
                  obtain ⟨v2, st2⟩ := p
                  dsimp only at h
                  by_cases hf2 : st2.fatalReported = true
                  · rw [if_pos hf2] at h
                    simp only [Option.some.injEq, Prod.mk.injEq] at h
                    rw [← h.2] at hfatal
                    rw [hfatal] at hf2
                    exact absurd hf2 (by simp)
                  · rw [if_neg hf2] at h
                    simp only [Option.some.injEq, Prod.mk.injEq] at h
                    have hdep : st2.depth = st.depth + 1 :=
                      ih dd { st with depth := st.depth + 1 } v2 st2 hin
                        (by simpa using hf2)
                    rcases h with ⟨-, h2⟩
                    rw [← h2]
                    simp [hdep]

/-- C6: the evaluator's depth counter is incremented before recursing into
a constant variable's initializer and caps the recursion at 32.  The cyclic
pair `const a = b; const b = a;` is evaluated to completion within fuel 33,
reporting the fatal cyclic-constant-definition error with the counter at 33
and the evaluation abandoned (no cache write); adding arbitrary fuel does
not change this — the recursion is bounded by the depth check, not by the
fuel.  An acyclic chain deeper than 32 declarations hits the same fatal
error, a 32-deep chain evaluates successfully, and every completed
non-fatal evaluation restores the depth counter to its initial value. -/
theorem evaluate_depth_bound :
    evalDecl cyclicConstEnv 33 0 ⟨[], 0, false⟩ = some (none, ⟨[], 33, true⟩)
    ∧ (∀ fuel, 33 ≤ fuel →
        evalDecl cyclicConstEnv fuel 0 ⟨[], 0, false⟩ = some (none, ⟨[], 33, true⟩))
    ∧ (evalDecl deepConstEnv 40 0 ⟨[], 0, false⟩).map
        (fun p => (p.1, p.2.depth, p.2.fatalReported)) = some (none, 33, true)
    ∧ (evalDecl okConstEnv 40 0 ⟨[], 0, false⟩).map
        (fun p => (p.1, p.2.depth, p.2.fatalReported))
        = some (some ⟨CType.rationalT 1, 1⟩, 0, false)
    ∧ (∀ env fuel d st v st', evalDecl env fuel d st = some (v, st') →
        st'.fatalReported = false → st'.depth = st.depth) := by
  refine ⟨by decide, ?_, by decide, by decide, ?_⟩
  · intro fuel hle
    exact evalDecl_fuel_le cyclicConstEnv hle (by decide)
  · intro env fuel d st v st' h hf
    exact evalDecl_depth_restored env fuel d st v st' h hf

/-- C6 witness: the fuel-independence part at fuel 34 and the
depth-restoration part on a concrete completed evaluation. -/
theorem evaluate_depth_bound_witness :
    evalDecl cyclicConstEnv 34 0 ⟨[], 0, false⟩ = some (none, ⟨[], 33, true⟩)
    ∧ (⟨[], 5, false⟩ : EvalState).depth = (⟨[], 5, false⟩ : EvalState).depth :=
  ⟨evaluate_depth_bound.2.1 34 (by norm_num),
   evaluate_depth_bound.2.2.2.2 [] 1 0 ⟨[], 5, false⟩ none ⟨[], 5, false⟩
     (by decide) rfl⟩

/-- C2: the within-node replay of variable occurrences: a `Declaration`
inserts its variable into the unassigned set, an `Assignment` removes it,
and `Access`/`Return`/`InlineAssembly` leave the set unchanged, flagging
the occurrence exactly when its variable is in the current set; the state
after the last occurrence becomes the node's unassigned-at-exit state and
its flagged-access set. -/
theorem processOccurrence_spec (s : Finset ℕ) (f : List VarOccurrence)
    (vo : VarOccurrence) (g : CFG) (n : ℕ) (ni : NodeInfo) :
    (vo.kind = .declaration → processOccurrence (s, f) vo = (insert vo.decl s, f))
    ∧ (vo.kind = .assignment → processOccurrence (s, f) vo = (s.erase vo.decl, f))
    ∧ (vo.kind = .access ∨ vo.kind = .ret ∨ vo.kind = .inlineAssembly →
        processOccurrence (s, f) vo = (s, if vo.decl ∈ s then f.insert vo else f)
        ∧ (vo ∈ (processOccurrence (s, f) vo).2 ↔ vo.decl ∈ s ∨ vo ∈ f))
    ∧ (processNode g n ni).unassignedVariablesAtEntry = ni.unassignedVariablesAtEntry
    ∧ (processNode g n ni).unassignedVariablesAtExit =
        ((g.node n).variableOccurrences.foldl processOccurrence
          (ni.unassignedVariablesAtEntry, ni.uninitializedVariableAccesses)).1
    ∧ (processNode g n ni).uninitializedVariableAccesses =
        ((g.node n).variableOccurrences.foldl processOccurrence
          (ni.unassignedVariablesAtEntry, ni.uninitializedVariableAccesses)).2 := by
  have haccess : vo.kind = .access ∨ vo.kind = .ret ∨ vo.kind = .inlineAssembly →
      processOccurrence (s, f) vo = (s, if vo.decl ∈ s then f.insert vo else f) := by
    intro hk
    by_cases hmem : vo.decl ∈ s
    · rcases hk with hk | hk | hk <;>
        simp [processOccurrence, hk, hmem]
    · rcases hk with hk | hk | hk <;>
        simp [processOccurrence, hk, hmem]
  refine ⟨?_, ?_, ?_, rfl, rfl, rfl⟩
  · intro hk
    simp [processOccurrence, hk]
  · intro hk
    simp [processOccurrence, hk]
  · intro hk
    refine ⟨haccess hk, ?_⟩
    rw [haccess hk]
    by_cases hmem : vo.decl ∈ s
    · simp [hmem, List.mem_insert_iff]
    · simp [hmem]

/-- C2 witness: each occurrence kind at a concrete state. -/
theorem processOccurrence_spec_witness :
    processOccurrence (∅, []) ⟨0, .declaration, 3, none⟩ = ({3}, [])
    ∧ processOccurrence ({3}, []) ⟨1, .assignment, 3, none⟩ = (Finset.erase {3} 3, [])
    ∧ processOccurrence ({3}, []) ⟨2, .access, 3, none⟩ =
        ({3}, [⟨2, .access, 3, none⟩]) := by
  refine ⟨?_, ?_, ?_⟩
  · exact (processOccurrence_spec ∅ [] ⟨0, .declaration, 3, none⟩ ⟨[]⟩ 0 NodeInfo.empty).1 rfl
  · exact (processOccurrence_spec {3} [] ⟨1, .assignment, 3, none⟩ ⟨[]⟩ 0 NodeInfo.empty).2.1 rfl
  · have h := ((processOccurrence_spec {3} [] ⟨2, .access, 3, none⟩ ⟨[]⟩ 0
      NodeInfo.empty).2.2.1 (Or.inl rfl)).1
    rw [h]
    decide

/-- Membership in a sorted insertion. -/
theorem mem_occInsertSorted (o vo : VarOccurrence) :
    ∀ l, vo ∈ occInsertSorted o l ↔ vo = o ∨ vo ∈ l := by
  intro l
  induction l with
  | nil => simp [occInsertSorted]
  | cons x xs ih =>
    rw [occInsertSorted]
    by_cases hle : occLe o x = true
    · simp [hle]
    · simp only [hle, if_false, Bool.false_eq_true, List.mem_cons, ih]
      tauto

/-- Sorting the flagged accesses does not change their membership. -/
theorem mem_sortOccurrences (l : List VarOccurrence) (vo : VarOccurrence) :
    vo ∈ sortOccurrences l ↔ vo ∈ l := by
  induction l with
  | nil => simp [sortOccurrences]
  | cons o rest ih =>
    rw [sortOccurrences, List.foldr_cons, mem_occInsertSorted]
    rw [sortOccurrences] at ih
    simp [ih]

/-- The already-warned set only grows during reporting. -/
theorem reportLoop_warned_mono (vars : ℕ → VarInfo) (emptyBody : Bool)
    (contractName : Option String) :
    ∀ os w, w ⊆ (reportLoop vars emptyBody contractName os w).2 := by
  intro os
  induction os with
  | nil =>
    intro w
    rw [reportLoop]
  | cons vo rest ih =>
    intro w
    simp only [reportLoop]
    by_cases h1 : isStorageOrCalldata (vars vo.decl) = true
    · rw [if_pos h1]
      exact ih w
    · rw [if_neg h1]
      by_cases h2 : (!emptyBody && decide ((vars vo.decl).name = "")) = true
      · rw [if_pos h2]
        by_cases h3 : vo.decl ∈ w
        · rw [if_pos h3]
          exact ih w
        · rw [if_neg h3]
          exact subset_trans (Finset.subset_insert _ _) (ih _)
      · rw [if_neg h2]
        exact ih w

/-- Every flagged storage/calldata occurrence in the processed list gets
its hard error into the diagnostic stream. -/
theorem reportLoop_hard_mem (vars : ℕ → VarInfo) (emptyBody : Bool)
    (contractName : Option String) :
    ∀ os w vo, vo ∈ os → isStorageOrCalldata (vars vo.decl) = true →
      hardErrorDiag vo (vars vo.decl) ∈ (reportLoop vars emptyBody contractName os w).1 := by
  intro os
  induction os with
  | nil => intro w vo hvo; exact absurd hvo (by simp)
  | cons o rest ih =>
    intro w vo hvo hstor
    simp only [reportLoop]
    rcases List.mem_cons.mp hvo with rfl | hvo
    · rw [if_pos hstor]
      exact List.mem_cons_self _ _
    · by_cases h1 : isStorageOrCalldata (vars o.decl) = true
      · rw [if_pos h1]
        exact List.mem_cons_of_mem _ (ih w vo hvo hstor)
      · rw [if_neg h1]
        by_cases h2 : (!emptyBody && decide ((vars o.decl).name = "")) = true
        · rw [if_pos h2]
          by_cases h3 : o.decl ∈ w
          · rw [if_pos h3]
            exact ih w vo hvo hstor
          · rw [if_neg h3]
            exact List.mem_cons_of_mem _ (ih _ vo hvo hstor)
        · rw [if_neg h2]
          exact ih w vo hvo hstor

/-- Every flagged unnamed non-storage occurrence whose declaration has not
been warned about gets the warning into the diagnostic stream. -/
theorem reportLoop_warn_mem (vars : ℕ → VarInfo) (emptyBody : Bool)
    (contractName : Option String) :
    ∀ os w vo, vo ∈ os → isStorageOrCalldata (vars vo.decl) = false →
      emptyBody = false → (vars vo.decl).name = "" → vo.decl ∉ w →
      unnamedReturnWarning (vars vo.decl) contractName ∈
        (reportLoop vars emptyBody contractName os w).1 := by
  intro os
  induction os with
  | nil => intro w vo hvo; exact absurd hvo (by simp)
  | cons o rest ih =>
    intro w vo hvo hstor hempty hname hw
    simp only [reportLoop]
    rcases List.mem_cons.mp hvo with rfl | hvo
    · rw [if_neg (by simp [hstor]), if_pos (by simp [hempty, hname]), if_neg hw]
      exact List.mem_cons_self _ _
    · by_cases h1 : isStorageOrCalldata (vars o.decl) = true
      · rw [if_pos h1]
        exact List.mem_cons_of_mem _ (ih w vo hvo hstor hempty hname hw)
      · rw [if_neg h1]
        by_cases h2 : (!emptyBody && decide ((vars o.decl).name = "")) = true
        · rw [if_pos h2]
          by_cases h3 : o.decl ∈ w
          · rw [if_pos h3]
            exact ih w vo hvo hstor hempty hname hw
          · rw [if_neg h3]
            by_cases hod : o.decl = vo.decl
            · rw [hod]
              exact List.mem_cons_self _ _
            · refine List.mem_cons_of_mem _ (ih _ vo hvo hstor hempty hname ?_)
              rw [Finset.mem_insert]
              push_neg
              exact ⟨fun h => hod h.symm, hw⟩
        · rw [if_neg h2]
          exact ih w vo hvo hstor hempty hname hw

/-- Every flagged unnamed non-storage occurrence's declaration ends up in
the already-warned set. -/
theorem reportLoop_warn_decl_mem (vars : ℕ → VarInfo) (emptyBody : Bool)
    (contractName : Option String) :
    ∀ os w vo, vo ∈ os → isStorageOrCalldata (vars vo.decl) = false →
      emptyBody = false → (vars vo.decl).name = "" →
      vo.decl ∈ (reportLoop vars emptyBody contractName os w).2 := by
  intro os
  induction os with
  | nil => intro w vo hvo; exact absurd hvo (by simp)
  | cons o rest ih =>
    intro w vo hvo hstor hempty hname
    simp only [reportLoop]
    rcases List.mem_cons.mp hvo with rfl | hvo
    · rw [if_neg (by simp [hstor]), if_pos (by simp [hempty, hname])]
      by_cases h3 : vo.decl ∈ w
      · rw [if_pos h3]
        exact reportLoop_warned_mono vars emptyBody contractName rest w h3
      · rw [if_neg h3]
        exact reportLoop_warned_mono vars emptyBody contractName rest _
          (Finset.mem_insert_self _ _)
    · by_cases h1 : isStorageOrCalldata (vars o.decl) = true
      · rw [if_pos h1]
        exact ih w vo hvo hstor hempty hname
      · rw [if_neg h1]
        by_cases h2 : (!emptyBody && decide ((vars o.decl).name = "")) = true
        · rw [if_pos h2]
          by_cases h3 : o.decl ∈ w
          · rw [if_pos h3]
            exact ih w vo hvo hstor hempty hname
          · rw [if_neg h3]
            exact ih _ vo hvo hstor hempty hname
        · rw [if_neg h2]
          exact ih w vo hvo hstor hempty hname

/-- Every emitted diagnostic stems from one of the processed occurrences,
either as its hard error (storage/calldata) or as the unnamed-return
warning of a not-yet-warned declaration. -/
theorem reportLoop_provenance (vars : ℕ → VarInfo) (emptyBody : Bool)
    (contractName : Option String) :
    ∀ os w d, d ∈ (reportLoop vars emptyBody contractName os w).1 →
      ∃ vo, vo ∈ os ∧
        ((isStorageOrCalldata (vars vo.decl) = true ∧ d = hardErrorDiag vo (vars vo.decl))
          ∨ (isStorageOrCalldata (vars vo.decl) = false ∧ emptyBody = false
              ∧ (vars vo.decl).name = "" ∧ vo.decl ∉ w
              ∧ d = unnamedReturnWarning (vars vo.decl) contractName)) := by
  intro os
  induction os with
  | nil =>
    intro w d hd
    rw [reportLoop] at hd
    exact absurd hd (by simp)
  | cons o rest ih =>
    intro w d hd
    simp only [reportLoop] at hd
    by_cases h1 : isStorageOrCalldata (vars o.decl) = true
    · rw [if_pos h1] at hd
      rcases List.mem_cons.mp hd with rfl | hd
      · exact ⟨o, List.mem_cons_self _ _, Or.inl ⟨h1, rfl⟩⟩
      · obtain ⟨vo, hvo, hcase⟩ := ih w d hd
        exact ⟨vo, List.mem_cons_of_mem _ hvo, hcase⟩
    · rw [if_neg h1] at hd
      by_cases h2 : (!emptyBody && decide ((vars o.decl).name = "")) = true
      · rw [if_pos h2] at hd
        have h2' : emptyBody = false ∧ (vars o.decl).name = "" := by
          simpa [Bool.and_eq_true, Bool.not_eq_true'] using h2
        by_cases h3 : o.decl ∈ w
        · rw [if_pos h3] at hd
          obtain ⟨vo, hvo, hcase⟩ := ih w d hd
          exact ⟨vo, List.mem_cons_of_mem _ hvo, hcase⟩
        · rw [if_neg h3] at hd
          rcases List.mem_cons.mp hd with rfl | hd
          · exact ⟨o, List.mem_cons_self _ _,
              Or.inr ⟨Bool.not_eq_true _ ▸ by simpa using h1, h2'.1, h2'.2, h3, rfl⟩⟩
          · obtain ⟨vo, hvo, hcase⟩ := ih _ d hd
            refine ⟨vo, List.mem_cons_of_mem _ hvo, ?_⟩
            rcases hcase with hc | ⟨hs, he, hn, hwm, hde⟩
            · exact Or.inl hc
            · exact Or.inr ⟨hs, he, hn, fun hmem => hwm (Finset.mem_insert_of_mem hmem), hde⟩
      · rw [if_neg h2] at hd
        obtain ⟨vo, hvo, hcase⟩ := ih w d hd
        exact ⟨vo, List.mem_cons_of_mem _ hvo, hcase⟩

/-- When every eligible declaration is already in the warned set, no 6321
warning is emitted (only hard errors can appear). -/
theorem reportLoop_no_warning (vars : ℕ → VarInfo) (emptyBody : Bool)
    (contractName : Option String) :
    ∀ os w, (∀ vo ∈ os, isStorageOrCalldata (vars vo.decl) = false →
        emptyBody = false → (vars vo.decl).name = "" → vo.decl ∈ w) →
      ∀ d ∈ (reportLoop vars emptyBody contractName os w).1, d.errorId ≠ 6321 := by
  intro os
  induction os with
  | nil =>
    intro w hall d hd
    rw [reportLoop] at hd
    exact absurd hd (by simp)
  | cons o rest ih =>
    intro w hall d hd
    simp only [reportLoop] at hd
    by_cases h1 : isStorageOrCalldata (vars o.decl) = true
    · rw [if_pos h1] at hd
      rcases List.mem_cons.mp hd with rfl | hd
      · simp [hardErrorDiag]
      · exact ih w (fun vo hvo => hall vo (List.mem_cons_of_mem _ hvo)) d hd
    · rw [if_neg h1] at hd
      by_cases h2 : (!emptyBody && decide ((vars o.decl).name = "")) = true
      · rw [if_pos h2] at hd
        have h2' : emptyBody = false ∧ (vars o.decl).name = "" := by
          simpa [Bool.and_eq_true, Bool.not_eq_true'] using h2
        have h3 : o.decl ∈ w :=
          hall o (List.mem_cons_self _ _) (by simpa using h1) h2'.1 h2'.2
        rw [if_pos h3] at hd
        exact ih w (fun vo hvo => hall vo (List.mem_cons_of_mem _ hvo)) d hd
      · rw [if_neg h2] at hd
        exact ih w (fun vo hvo => hall vo (List.mem_cons_of_mem _ hvo)) d hd

/-- The reporting phase is the report loop over the sorted flagged accesses
of the exit node (the source's early return on an empty set coincides with
the loop on the empty list). -/
theorem checkUninitializedAccess_eq_reportLoop (g : CFG) (vars : ℕ → VarInfo)
    (fuel entry exitNode : ℕ) (emptyBody : Bool) (contractName : Option String)
    (warned : Finset ℕ) :
    checkUninitializedAccess g vars fuel entry exitNode emptyBody contractName warned =
      reportLoop vars emptyBody contractName
        (sortOccurrences
          ((uninitFixpoint g fuel entry).info exitNode).uninitializedVariableAccesses)
        warned := by
  rw [checkUninitializedAccess]
  by_cases h : ((uninitFixpoint g fuel entry).info exitNode).uninitializedVariableAccesses = []
  · rw [if_pos h, h]
    rfl
  · rw [if_neg h]

/-- C1 (amended): each flagged uninitialized access in the exit node's
NodeInfo, processed in sorted order, is reported as follows.  A
storage/calldata-located variable gets the hard type error 3464 whose
message says "returned" for `Return` occurrences and "accessed" otherwise;
the secondary note pointing at the declaration is appended exactly when the
occurrence carries a source location (when it carries none, the error is
placed at the declaration's location without a note).  Otherwise, with a
non-empty body and an unnamed variable, the warning 6321 is emitted unless
the declaration was already warned about; the declaration enters the
analyzer-lifetime warned set, so a repeated run emits no 6321 warning.  All
remaining diagnostics-producing cases are impossible: every diagnostic
stems from one of the two rules. -/
theorem checkUninitializedAccess_report_spec (g : CFG) (vars : ℕ → VarInfo)
    (fuel entry exitNode : ℕ) (emptyBody : Bool) (contractName : Option String)
    (warned : Finset ℕ) :
    (∀ vo ∈ ((uninitFixpoint g fuel entry).info exitNode).uninitializedVariableAccesses,
        isStorageOrCalldata (vars vo.decl) = true →
        hardErrorDiag vo (vars vo.decl) ∈
          (checkUninitializedAccess g vars fuel entry exitNode emptyBody contractName
            warned).1)
    ∧ (∀ vo v, (hardErrorDiag vo v).errorId = 3464
        ∧ (hardErrorDiag vo v).severity = .typeError
        ∧ (hardErrorDiag vo v).msg =
            "This variable is of "
              ++ (if v.dataLoc = .storage then "storage" else "calldata")
              ++ " pointer type and can be "
              ++ (if vo.kind = .ret then "returned" else "accessed")
              ++ " without prior assignment, which would lead to undefined behaviour."
        ∧ (hardErrorDiag vo v).secondary =
            (if vo.occ.isSome then [("The variable was declared here.", v.location)]
             else [])
        ∧ (hardErrorDiag vo v).loc = vo.occ.getD v.location)
    ∧ (∀ vo ∈ ((uninitFixpoint g fuel entry).info exitNode).uninitializedVariableAccesses,
        isStorageOrCalldata (vars vo.decl) = false → emptyBody = false →
        (vars vo.decl).name = "" → vo.decl ∉ warned →
        unnamedReturnWarning (vars vo.decl) contractName ∈
          (checkUninitializedAccess g vars fuel entry exitNode emptyBody contractName
            warned).1)
    ∧ (∀ vo ∈ ((uninitFixpoint g fuel entry).info exitNode).uninitializedVariableAccesses,
        isStorageOrCalldata (vars vo.decl) = false → emptyBody = false →
        (vars vo.decl).name = "" →
        vo.decl ∈
          (checkUninitializedAccess g vars fuel entry exitNode emptyBody contractName
            warned).2)
    ∧ (∀ d ∈ (checkUninitializedAccess g vars fuel entry exitNode emptyBody contractName
          (checkUninitializedAccess g vars fuel entry exitNode emptyBody contractName
            warned).2).1,
        d.errorId ≠ 6321)
    ∧ (∀ d ∈ (checkUninitializedAccess g vars fuel entry exitNode emptyBody contractName
          warned).1,
        ∃ vo ∈ ((uninitFixpoint g fuel entry).info exitNode).uninitializedVariableAccesses,
          (isStorageOrCalldata (vars vo.decl) = true ∧ d = hardErrorDiag vo (vars vo.decl))
          ∨ (isStorageOrCalldata (vars vo.decl) = false ∧ emptyBody = false
              ∧ (vars vo.decl).name = "" ∧ vo.decl ∉ warned
              ∧ d = unnamedReturnWarning (vars vo.decl) contractName)) := by
  rw [checkUninitializedAccess_eq_reportLoop g vars fuel entry exitNode emptyBody
    contractName warned]
  refine ⟨?_, ?_, ?_, ?_, ?_, ?_⟩
  · intro vo hvo hstor
    exact reportLoop_hard_mem vars emptyBody contractName _ warned vo
      ((mem_sortOccurrences _ vo).mpr hvo) hstor
  · intro vo v
    exact ⟨rfl, rfl, rfl, rfl, rfl⟩
  · intro vo hvo hstor hempty hname hw
    exact reportLoop_warn_mem vars emptyBody contractName _ warned vo
      ((mem_sortOccurrences _ vo).mpr hvo) hstor hempty hname hw
  · intro vo hvo hstor hempty hname
    exact reportLoop_warn_decl_mem vars emptyBody contractName _ warned vo
      ((mem_sortOccurrences _ vo).mpr hvo) hstor hempty hname
  · rw [checkUninitializedAccess_eq_reportLoop]
    intro d hd
    refine reportLoop_no_warning vars emptyBody contractName _ _ ?_ d hd
    intro vo hvo hstor hempty hname
    exact reportLoop_warn_decl_mem vars emptyBody contractName _ warned vo hvo
      hstor hempty hname
  · intro d hd
    obtain ⟨vo, hvo, hcase⟩ := reportLoop_provenance vars emptyBody contractName
      _ warned d hd
    exact ⟨vo, (mem_sortOccurrences _ vo).mp hvo, hcase⟩

/-- C1 witness: the hard-error rule at the concrete two-node CFG. -/
theorem checkUninitializedAccess_report_spec_witness :
    hardErrorDiag ⟨1, .access, 0, none⟩ (varsStorage 0) ∈
      (checkUninitializedAccess gOccNoLoc varsStorage 8 0 1 false none ∅).1 :=
  (checkUninitializedAccess_report_spec gOccNoLoc varsStorage 8 0 1 false none ∅).1
    ⟨1, .access, 0, none⟩ (by decide) (by decide)

/-- C1 counterexample: a flagged storage-pointer access whose occurrence
carries no source location is reported as a hard error with an empty
secondary-note list (and primary location at the declaration), contradicting
the claim that every such error appends a secondary note pointing at the
declaration. -/
theorem checkUninitializedAccess_hard_error_without_note :
    (checkUninitializedAccess gOccNoLoc varsStorage 8 0 1 false none ∅).1 =
      [⟨3464, .typeError, ⟨5, 9⟩, [],
        "This variable is of storage pointer type and can be accessed without prior assignment, which would lead to undefined behaviour."⟩]
    ∧ (⟨1, .access, 0, none⟩ : VarOccurrence) ∈
        ((uninitFixpoint gOccNoLoc 8 0).info 1).uninitializedVariableAccesses
    ∧ isStorageOrCalldata (varsStorage 0) = true := by
  refine ⟨by decide, by decide, by decide⟩

/-- C10: the reporting phase reads only the exit node's NodeInfo: every
emitted diagnostic is the hard error or the unnamed-return warning of a
flagged access recorded there.  A read-before-assignment that only occurs
on a path ending in the revert sink leaves the exit node's flag set empty
and produces no diagnostic, although the flag is present in the revert-path
node's own NodeInfo. -/
theorem checkUninitializedAccess_exit_gated (g : CFG) (vars : ℕ → VarInfo)
    (fuel entry exitNode : ℕ) (emptyBody : Bool) (contractName : Option String)
    (warned : Finset ℕ) :
    (∀ d ∈ (checkUninitializedAccess g vars fuel entry exitNode emptyBody contractName
        warned).1,
      ∃ vo ∈ ((uninitFixpoint g fuel entry).info exitNode).uninitializedVariableAccesses,
        d = hardErrorDiag vo (vars vo.decl)
          ∨ d = unnamedReturnWarning (vars vo.decl) contractName)
    ∧ checkUninitializedAccess gRevertPath varsStorage 12 0 4 false none ∅ = ([], ∅)
    ∧ (⟨1, .access, 0, some ⟨10, 12⟩⟩ : VarOccurrence) ∈
        ((uninitFixpoint gRevertPath 12 0).info 1).uninitializedVariableAccesses := by
  refine ⟨?_, by decide, by decide⟩
  intro d hd
  rw [checkUninitializedAccess_eq_reportLoop] at hd
  obtain ⟨vo, hvo, hcase⟩ := reportLoop_provenance vars emptyBody contractName
    _ warned d hd
  refine ⟨vo, (mem_sortOccurrences _ vo).mp hvo, ?_⟩
  rcases hcase with ⟨-, hde⟩ | ⟨-, -, -, -, hde⟩
  · exact Or.inl hde
  · exact Or.inr hde

/-- Soundness of the iterated BFS expansion: everything it visits is
reachable from one of the start nodes along the child relation. -/
theorem mem_bfsIter_reaches (children : ℕ → List ℕ) :
    ∀ k s n, n ∈ bfsIter children k s →
      ∃ m ∈ s, Relation.ReflTransGen (fun a b => b ∈ children a) m n := by
  intro k
  induction k with
  | zero =>
    intro s n hn
    exact ⟨n, hn, Relation.ReflTransGen.refl⟩
  | succ j ih =>
    intro s n hn
    rw [bfsIter] at hn
    obtain ⟨m, hm, hreach⟩ := ih (bfsStep children s) n hn
    rw [bfsStep, Finset.mem_union] at hm
    rcases hm with hm | hm
    · exact ⟨m, hm, hreach⟩
    · rw [Finset.mem_biUnion] at hm
      obtain ⟨p, hp, hmp⟩ := hm
      rw [List.mem_toFinset] at hmp
      exact ⟨p, hp, Relation.ReflTransGen.head hmp hreach⟩

/-- Soundness of the forward reachable set: its members really are
reachable from the entry along successor edges. -/
theorem mem_reachableSet_reaches (g : CFG) (entry n : ℕ)
    (hn : n ∈ reachableSet g entry) : g.Reaches entry n := by
  obtain ⟨m, hm, hreach⟩ := mem_bfsIter_reaches _ _ _ n hn
  rw [Finset.mem_singleton] at hm
  subst hm
  exact hreach

/-- Membership in an ordered-unique location insertion. -/
theorem mem_locInsert (l : SrcLoc) :
    ∀ xs x, x ∈ locInsert l xs ↔ x = l ∨ x ∈ xs := by
  intro xs
  induction xs with
  | nil => intro x; simp [locInsert]
  | cons y ys ih =>
    intro x
    rw [locInsert]
    by_cases h1 : locLt l y = true
    · simp [h1]
    · rw [if_neg h1]
      by_cases h2 : l = y
      · rw [if_pos h2]
        subst h2
        simp [List.mem_cons]
      · rw [if_neg h2]
        simp only [List.mem_cons, ih]
        tauto

/-- A strict location-order fact: the earlier location starts no later. -/
theorem locLt_start_le {a b : SrcLoc} (h : locLt a b = true) :
    a.startPos ≤ b.startPos := by
  unfold locLt at h
  simp only [Bool.or_eq_true, Bool.and_eq_true, decide_eq_true_eq] at h
  omega

/-- If `a` is not strictly before `b`, then `b` starts no later than `a`. -/
theorem not_locLt_start_le {a b : SrcLoc} (h : ¬ locLt a b = true) :
    b.startPos ≤ a.startPos := by
  unfold locLt at h
  simp only [Bool.or_eq_true, Bool.and_eq_true, decide_eq_true_eq] at h
  omega

/-- Ordered insertion preserves the nondecreasing-start invariant. -/
theorem pairwise_locInsert (l : SrcLoc) :
    ∀ xs, List.Pairwise (fun a b : SrcLoc => a.startPos ≤ b.startPos) xs →
      List.Pairwise (fun a b : SrcLoc => a.startPos ≤ b.startPos) (locInsert l xs) := by
  intro xs
  induction xs with
  | nil => intro _; simp [locInsert]
  | cons y ys ih =>
    intro hp
    rw [List.pairwise_cons] at hp
    obtain ⟨hy, hys⟩ := hp
    rw [locInsert]
    by_cases h1 : locLt l y = true
    · rw [if_pos h1]
      refine List.Pairwise.cons ?_ (List.Pairwise.cons hy hys)
      intro z hz
      rcases List.mem_cons.mp hz with rfl | hz
      · exact locLt_start_le h1
      · exact le_trans (locLt_start_le h1) (hy z hz)
    · rw [if_neg h1]
      by_cases h2 : l = y
      · rw [if_pos h2]
        exact List.Pairwise.cons hy hys
      · rw [if_neg h2]
        refine List.Pairwise.cons ?_ (ih hys)
        intro z hz
        rcases (mem_locInsert l ys z).mp hz with rfl | hz
        · exact not_locLt_start_le h1
        · exact hy z hz

/-- The collected location set is sorted by nondecreasing start. -/
theorem pairwise_locSetList (ls : List SrcLoc) :
    List.Pairwise (fun a b : SrcLoc => a.startPos ≤ b.startPos) (locSetList ls) := by
  suffices h : ∀ acc, List.Pairwise (fun a b : SrcLoc => a.startPos ≤ b.startPos) acc →
      List.Pairwise (fun a b : SrcLoc => a.startPos ≤ b.startPos)
        (ls.foldl (fun acc l => locInsert l acc) acc) by
    exact h [] (by simp)
  induction ls with
  | nil => intro acc hacc; simpa using hacc
  | cons l rest ih =>
    intro acc hacc
    rw [List.foldl_cons]
    exact ih _ (pairwise_locInsert l acc hacc)

/-- Membership in the collected location set. -/
theorem mem_locSetList (ls : List SrcLoc) (x : SrcLoc) :
    x ∈ locSetList ls ↔ x ∈ ls := by
  have aux : ∀ (ms : List SrcLoc) (acc : List SrcLoc),
      x ∈ ms.foldl (fun a l => locInsert l a) acc ↔ x ∈ acc ∨ x ∈ ms := by
    intro ms
    induction ms with
    | nil => intro acc; simp
    | cons l rest ih =>
      intro acc
      rw [List.foldl_cons, ih, mem_locInsert]
      simp only [List.mem_cons]
      tauto
  simpa using aux ls []

/-- Every recorded location is covered by one of the merged ranges. -/
theorem mergeGroup_covers :
    ∀ (rest : List SrcLoc) (cur : SrcLoc),
      List.Pairwise (fun a b : SrcLoc => a.startPos ≤ b.startPos) (cur :: rest) →
      ∀ l ∈ cur :: rest, ∃ m ∈ mergeGroup cur rest,
        m.startPos ≤ l.startPos ∧ l.endPos ≤ m.endPos := by
  intro rest
  induction rest with
  | nil =>
    intro cur _ l hl
    rcases List.mem_cons.mp hl with rfl | h
    · exact ⟨l, by simp [mergeGroup], le_rfl, le_rfl⟩
    · exact absurd h (by simp)
  | cons x rs ih =>
    intro cur hp l hl
    rw [List.pairwise_cons] at hp
    obtain ⟨hcur, hrest⟩ := hp
    rw [mergeGroup]
    by_cases hx : x.startPos ≤ cur.endPos
    · rw [if_pos hx]
      have hp' : List.Pairwise (fun a b : SrcLoc => a.startPos ≤ b.startPos)
          ((⟨cur.startPos, max cur.endPos x.endPos⟩ : SrcLoc) :: rs) := by
        rw [List.pairwise_cons]
        refine ⟨?_, (List.pairwise_cons.mp hrest).2⟩
        intro z hz
        exact hcur z (List.mem_cons_of_mem _ hz)
      rcases List.mem_cons.mp hl with rfl | hl
      · obtain ⟨m, hm, hms, hme⟩ := ih _ hp' _ (List.mem_cons_self _ _)
        exact ⟨m, hm, hms, le_trans (le_max_left _ _) hme⟩
      · rcases List.mem_cons.mp hl with rfl | hl
        · obtain ⟨m, hm, hms, hme⟩ := ih _ hp' _ (List.mem_cons_self _ _)
          refine ⟨m, hm, ?_, ?_⟩
          · exact le_trans hms (hcur l (List.mem_cons_self _ _))
          · exact le_trans (le_max_right _ _) hme
        · obtain ⟨m, hm, hms, hme⟩ := ih _ hp' l (List.mem_cons_of_mem _ hl)
          exact ⟨m, hm, hms, hme⟩
    · rw [if_neg hx]
      rcases List.mem_cons.mp hl with rfl | hl
      · exact ⟨l, List.mem_cons_self _ _, le_rfl, le_rfl⟩
      · obtain ⟨m, hm, hms, hme⟩ := ih x hrest l hl
        exact ⟨m, List.mem_cons_of_mem _ hm, hms, hme⟩

/-- The already-warned location set only grows. -/
theorem warnLoop_warned_mono : ∀ (ms : List SrcLoc) (w : Finset SrcLoc),
    w ⊆ (warnLoop w ms).2 := by
  intro ms
  induction ms with
  | nil => intro w; rw [warnLoop]
  | cons m rest ih =>
    intro w
    rw [warnLoop]
    by_cases h : m ∈ w
    · rw [if_pos h]
      exact ih w
    · rw [if_neg h]
      exact subset_trans (Finset.subset_insert _ _) (ih _)

/-- Every processed merged range ends up recorded in the warned set. -/
theorem warnLoop_warned_mem : ∀ (ms : List SrcLoc) (w : Finset SrcLoc) (m : SrcLoc),
    m ∈ ms → m ∈ (warnLoop w ms).2 := by
  intro ms
  induction ms with
  | nil => intro w m hm; exact absurd hm (by simp)
  | cons m0 rest ih =>
    intro w m hm
    rw [warnLoop]
    rcases List.mem_cons.mp hm with rfl | hm
    · by_cases h : m ∈ w
      · rw [if_pos h]
        exact warnLoop_warned_mono rest w h
      · rw [if_neg h]
        exact warnLoop_warned_mono rest _ (Finset.mem_insert_self _ _)
    · by_cases h : m0 ∈ w
      · rw [if_pos h]
        exact ih w m hm
      · rw [if_neg h]
        exact ih _ m hm

/-- A merged range not yet warned about gets its warning emitted. -/
theorem warnLoop_mem_warning : ∀ (ms : List SrcLoc) (w : Finset SrcLoc) (m : SrcLoc),
    m ∈ ms → m ∉ w → unreachableWarning m ∈ (warnLoop w ms).1 := by
  intro ms
  induction ms with
  | nil => intro w m hm; exact absurd hm (by simp)
  | cons m0 rest ih =>
    intro w m hm hw
    rw [warnLoop]
    rcases List.mem_cons.mp hm with rfl | hm
    · rw [if_neg hw]
      exact List.mem_cons_self _ _
    · by_cases h : m0 ∈ w
      · rw [if_pos h]
        exact ih w m hm hw
      · rw [if_neg h]
        by_cases hmm : m = m0
        · subst hmm
          exact List.mem_cons_self _ _
        · refine List.mem_cons_of_mem _ (ih _ m hm ?_)
          rw [Finset.mem_insert]
          push_neg
          exact ⟨hmm, hw⟩

/-- Every emitted unreachable-code warning is the warning of a processed
merged range that was not in the warned set when the loop started. -/
theorem warnLoop_provenance : ∀ (ms : List SrcLoc) (w : Finset SrcLoc) (d : Diagnostic),
    d ∈ (warnLoop w ms).1 → ∃ m ∈ ms, d = unreachableWarning m ∧ m ∉ w := by
  intro ms
  induction ms with
  | nil =>
    intro w d hd
    rw [warnLoop] at hd
    exact absurd hd (by simp)
  | cons m0 rest ih =>
    intro w d hd
    rw [warnLoop] at hd
    by_cases h : m0 ∈ w
    · rw [if_pos h] at hd
      obtain ⟨m, hm, hde, hmw⟩ := ih w d hd
      exact ⟨m, List.mem_cons_of_mem _ hm, hde, hmw⟩
    · rw [if_neg h] at hd
      rcases List.mem_cons.mp hd with rfl | hd
      · exact ⟨m0, List.mem_cons_self _ _, rfl, h⟩
      · obtain ⟨m, hm, hde, hmw⟩ := ih _ d hd
        exact ⟨m, List.mem_cons_of_mem _ hm, hde,
          fun hmem => hmw (Finset.mem_insert_of_mem hmem)⟩

/-- When every merged range is already in the warned set, nothing is
emitted. -/
theorem warnLoop_silent : ∀ (ms : List SrcLoc) (w : Finset SrcLoc),
    (∀ m ∈ ms, m ∈ w) → (warnLoop w ms).1 = [] := by
  intro ms
  induction ms with
  | nil => intro w _; rw [warnLoop]
  | cons m0 rest ih =>
    intro w hall
    rw [warnLoop, if_pos (hall m0 (List.mem_cons_self _ _))]
    exact ih w (fun m hm => hall m (List.mem_cons_of_mem _ hm))

/-- The warnings emitted by one run have pairwise-distinct locations: at
most one warning per merged range. -/
theorem warnLoop_nodup_locs : ∀ (ms : List SrcLoc) (w : Finset SrcLoc),
    List.Pairwise (fun d1 d2 : Diagnostic => d1.loc ≠ d2.loc) (warnLoop w ms).1 := by
  intro ms
  induction ms with
  | nil => intro w; rw [warnLoop]; exact List.Pairwise.nil
  | cons m0 rest ih =>
    intro w
    rw [warnLoop]
    by_cases h : m0 ∈ w
    · rw [if_pos h]
      exact ih w
    · rw [if_neg h]
      refine List.Pairwise.cons ?_ (ih _)
      intro d hd
      obtain ⟨m, _, hde, hmw⟩ := warnLoop_provenance rest _ d hd
      subst hde
      intro hloc
      have : m = m0 := hloc.symm
      subst this
      exact hmw (Finset.mem_insert_self _ _)

/-- C3 (amended): the unreachable-code check reports every node that the
backward traversal from the exit, revert and transaction-return sinks
visits, that is not forward-reachable from the entry, and that has a valid
source location: its location is covered by a merged range (locations are
collected sorted by position and any location starting at or before the
current merged range's end is coalesced into it), and each merged range
receives exactly one "Unreachable code." warning unless it is already in
the analyzer-lifetime warned set — in particular a second run over the same
function emits nothing.  Nodes invisible to the backward traversal are not
reported even when unreachable from the entry: see
`checkUnreachable_misses_isolated_node`. -/
theorem checkUnreachable_spec (g : CFG) (entry exitNode revertNode transactionReturn : ℕ)
    (warned : Finset SrcLoc) :
    (∀ n l, n ∈ backwardVisited g exitNode revertNode transactionReturn →
        n ∉ reachableSet g entry → (g.node n).location = some l →
        ∃ m ∈ mergeLocs (unreachableLocs g entry exitNode revertNode transactionReturn),
          m.startPos ≤ l.startPos ∧ l.endPos ≤ m.endPos
          ∧ (unreachableWarning m ∈
              (checkUnreachable g entry exitNode revertNode transactionReturn warned).1
            ∨ m ∈ warned))
    ∧ (∀ m ∈ mergeLocs (unreachableLocs g entry exitNode revertNode transactionReturn),
        m ∈ warned →
        unreachableWarning m ∉
          (checkUnreachable g entry exitNode revertNode transactionReturn warned).1)
    ∧ (∀ d ∈ (checkUnreachable g entry exitNode revertNode transactionReturn warned).1,
        ∃ m ∈ mergeLocs (unreachableLocs g entry exitNode revertNode transactionReturn),
          d = unreachableWarning m ∧ m ∉ warned)
    ∧ List.Pairwise (fun d1 d2 : Diagnostic => d1.loc ≠ d2.loc)
        (checkUnreachable g entry exitNode revertNode transactionReturn warned).1
    ∧ (checkUnreachable g entry exitNode revertNode transactionReturn
        (checkUnreachable g entry exitNode revertNode transactionReturn warned).2).1
        = [] := by
  refine ⟨?_, ?_, ?_, ?_, ?_⟩
  · intro n l hn hr hloc
    have hlen : n < g.nodes.length := by
      by_contra hno
      push_neg at hno
      have hdef : g.nodes.getD n default = default := List.getD_eq_default _ _ hno
      rw [CFG.node, hdef] at hloc
      exact absurd hloc (by simp)
    have hmem : l ∈ unreachableLocs g entry exitNode revertNode transactionReturn := by
      rw [unreachableLocs, mem_locSetList, List.mem_filterMap]
      refine ⟨n, List.mem_range.mpr hlen, ?_⟩
      rw [if_pos ⟨hn, hr⟩, hloc]
    have hpw := pairwise_locSetList
      (((List.range g.nodes.length).filterMap
        (fun n =>
          if n ∈ backwardVisited g exitNode revertNode transactionReturn
              ∧ n ∉ reachableSet g entry then
            (g.node n).location
          else none)))
    rw [← unreachableLocs] at hpw
    cases hu : unreachableLocs g entry exitNode revertNode transactionReturn with
    | nil =>
      rw [hu] at hmem
      exact absurd hmem (by simp)
    | cons c cs =>
      rw [hu] at hmem hpw
      obtain ⟨m, hm, hms, hme⟩ := mergeGroup_covers cs c hpw l hmem
      have hmcc : m ∈ mergeLocs (c :: cs) := by simpa [mergeLocs] using hm
      have hmmem :
          m ∈ mergeLocs (unreachableLocs g entry exitNode revertNode transactionReturn) := by
        rw [hu]
        exact hmcc
      refine ⟨m, hmcc, hms, hme, ?_⟩
      by_cases hw : m ∈ warned
      · exact Or.inr hw
      · exact Or.inl (warnLoop_mem_warning _ warned m hmmem hw)
  · intro m hm hw hcontra
    obtain ⟨m', hm', hde, hm'w⟩ := warnLoop_provenance _ warned _ hcontra
    have heq : m = m' := by
      simpa [unreachableWarning, Diagnostic.mk.injEq] using hde
    rw [heq] at hw
    exact hm'w hw
  · intro d hd
    exact warnLoop_provenance _ warned d hd
  · exact warnLoop_nodup_locs _ warned
  · refine warnLoop_silent _ _ ?_
    intro m hm
    exact warnLoop_warned_mem _ warned m hm

/-- C3 witness: the dead block of `gDeadBlock` (location [20, 30]) is
covered by a warned merged range. -/
theorem checkUnreachable_spec_witness :
    ∃ m ∈ mergeLocs (unreachableLocs gDeadBlock 0 1 2 3),
      m.startPos ≤ 20 ∧ 30 ≤ m.endPos
      ∧ (unreachableWarning m ∈ (checkUnreachable gDeadBlock 0 1 2 3 ∅).1
        ∨ m ∈ (∅ : Finset SrcLoc)) :=
  (checkUnreachable_spec gDeadBlock 0 1 2 3 ∅).1 4 ⟨20, 30⟩ (by decide) (by decide)
    (by decide)

/-- C3 counterexample: node 4 of `gIsolated` has a valid source location
and is not reachable from the entry, yet `checkUnreachable` reports
nothing, because the backward traversal from the exit, revert and
transaction-return sinks never visits it — the claim that every node with
a valid location unreachable from the entry is reported is false. -/
theorem checkUnreachable_misses_isolated_node :
    checkUnreachable gIsolated 0 1 2 3 ∅ = ([], ∅)
    ∧ (gIsolated.node 4).location = some ⟨20, 30⟩
    ∧ ¬ gIsolated.Reaches 0 4 := by
  refine ⟨by decide, by decide, ?_⟩
  intro h
  have hnoedge : ∀ b, ¬ gIsolated.Edge b 4 := by
    intro b
    match b with
    | 0 => intro hmem; simp only [CFG.Edge] at hmem; exact absurd hmem (by decide)
    | 1 => intro hmem; simp only [CFG.Edge] at hmem; exact absurd hmem (by decide)
    | 2 => intro hmem; simp only [CFG.Edge] at hmem; exact absurd hmem (by decide)
    | 3 => intro hmem; simp only [CFG.Edge] at hmem; exact absurd hmem (by decide)
    | 4 => intro hmem; simp only [CFG.Edge] at hmem; exact absurd hmem (by decide)
    | (k + 5) =>
      intro hmem
      have hdef : gIsolated.node (k + 5) = default := by
        rw [CFG.node]
        exact List.getD_eq_default _ _ (by simp [gIsolated])
      rw [CFG.Edge, hdef] at hmem
      exact absurd hmem (by decide)
  rcases Relation.ReflTransGen.cases_tail h with heq | ⟨c, -, hedge⟩
  · exact absurd heq (by decide)
  · exact hnoedge c hedge

/-- C10 witness: the provenance direction at the concrete two-node CFG. -/
theorem checkUninitializedAccess_exit_gated_witness :
    ∃ vo ∈ ((uninitFixpoint gOccNoLoc 8 0).info 1).uninitializedVariableAccesses,
      (⟨3464, .typeError, ⟨5, 9⟩, [],
        "This variable is of storage pointer type and can be accessed without prior assignment, which would lead to undefined behaviour."⟩ : Diagnostic)
          = hardErrorDiag vo (varsStorage vo.decl)
        ∨ (⟨3464, .typeError, ⟨5, 9⟩, [],
            "This variable is of storage pointer type and can be accessed without prior assignment, which would lead to undefined behaviour."⟩ : Diagnostic)
          = unnamedReturnWarning (varsStorage vo.decl) none :=
  (checkUninitializedAccess_exit_gated gOccNoLoc varsStorage 8 0 1 false none ∅).1
    _ (by decide)

